import Mathlib

/-!
Verification development for the banded pair-HMM alignment engines of
`src/realignment.rs` (functions `first_occ_vector`, `last_occ_vector`,
`forward_algorithm_non_numerically_stable`,
`forward_algorithm_numerically_stable`, `viterbi_max_scoring_alignment`).

Embedding conventions.

Probabilities (Rust `f64` in `[0,1]`) are modelled as exact rationals `ℚ`.
A Rust `LogProb` value is represented by its exponential, i.e. by the
linear-domain probability it denotes, again as a `ℚ`.  Under this
representation, `LogProb` addition (`+` on logs) becomes multiplication,
`ln_add_exp` / `ln_sum_exp` become addition / summation, `ln_zero()`
becomes `0`, `ln_one()` becomes `1`, and the strict order used by the
Viterbi engine is preserved (exp is strictly monotone).  The `f64::NAN`
sentinel poured into stale buffer slots has no probability reading; the
two log-domain engines therefore take the poison value as an explicit
extra first parameter `poison : ℚ`, written exactly where the Rust code
writes `NaN`.  Proving the result independent of `poison` is the formal
counterpart of "the NaN never reaches the result".

Rust `Vec` buffers indexed by `usize` are modelled as total functions
`Nat → ℚ` updated pointwise; an index-out-of-bounds write that Rust would
perform unconditionally (these exist exactly when a sequence is empty) is
modelled by an explicit `Option` guard at the top of the engine, `none`
standing for the panic.  All other accesses of the Rust code are in
bounds for the guarded inputs, which keeps the function model faithful.
-/

namespace Realignment

/-- Pointwise update of a one-dimensional buffer, the model of `buf[k] = x`. -/
def upd (f : Nat → ℚ) (k : Nat) (x : ℚ) : Nat → ℚ := fun t => if t = k then x else f t

/-- Pointwise update of a matrix, the model of `mat[a][b] = x`. -/
def updM (f : Nat → Nat → ℚ) (a b : Nat) (x : ℚ) : Nat → Nat → ℚ :=
  fun p q => if p = a ∧ q = b then x else f p q

@[simp] theorem upd_same (f : Nat → ℚ) (k : Nat) (x : ℚ) : upd f k x k = x := by
  simp [upd]

theorem upd_ne (f : Nat → ℚ) (k t : Nat) (x : ℚ) (h : t ≠ k) : upd f k x t = f t := by
  simp [upd, h]

theorem updM_ne (f : Nat → Nat → ℚ) (a b p q : Nat) (x : ℚ) (h : ¬(p = a ∧ q = b)) :
    updM f a b x p q = f p q := by
  simp [updM, h]

/-- Linear-domain transition probabilities, from `struct TransitionProbs`. -/
structure TransitionProbs where
  match_from_match : ℚ
  insertion_from_match : ℚ
  deletion_from_match : ℚ
  insertion_from_insertion : ℚ
  match_from_insertion : ℚ
  deletion_from_deletion : ℚ
  match_from_deletion : ℚ

/-- Log-domain transition probabilities, from `struct LnTransitionProbs`.
Each `LogProb` field is represented by the probability it denotes. -/
structure LnTransitionProbs where
  match_from_match : ℚ
  insertion_from_match : ℚ
  deletion_from_match : ℚ
  insertion_from_insertion : ℚ
  match_from_insertion : ℚ
  deletion_from_deletion : ℚ
  match_from_deletion : ℚ

/-- The conversion `TransitionProbs::ln`.  `LogProb::from(Prob(p))` denotes
log p, whose representation in this development is `p` itself, so the map
is field-wise value-preserving. -/
def TransitionProbs.ln (t : TransitionProbs) : LnTransitionProbs :=
  { match_from_match := t.match_from_match
    insertion_from_match := t.insertion_from_match
    deletion_from_match := t.deletion_from_match
    insertion_from_insertion := t.insertion_from_insertion
    match_from_insertion := t.match_from_insertion
    deletion_from_deletion := t.deletion_from_deletion
    match_from_deletion := t.match_from_deletion }

/-- Linear-domain emission probabilities, from `struct EmissionProbs`. -/
structure EmissionProbs where
  equal : ℚ
  not_equal : ℚ
  insertion : ℚ
  deletion : ℚ

/-- Log-domain emission probabilities, from `struct LnEmissionProbs`. -/
structure LnEmissionProbs where
  equal : ℚ
  not_equal : ℚ
  insertion : ℚ
  deletion : ℚ

/-- The conversion `EmissionProbs::ln`, value-preserving as for transitions. -/
def EmissionProbs.ln (e : EmissionProbs) : LnEmissionProbs :=
  { equal := e.equal, not_equal := e.not_equal
    insertion := e.insertion, deletion := e.deletion }

/-- The homopolymer table `HomopolymerProbs`: a finite map keyed by
(base, length on ref, length on read); `HashMap::get` is modelled by the
`Option`-valued lookup function. -/
structure HomopolymerProbs where
  lookup : Char → Nat → Nat → Option ℚ

/-- Log-domain homopolymer table `LnHomopolymerProbs`. -/
structure LnHomopolymerProbs where
  lookup : Char → Nat → Nat → Option ℚ

/-- The conversion `HomopolymerProbs::ln`, key- and value-preserving in the
probability representation. -/
def HomopolymerProbs.ln (h : HomopolymerProbs) : LnHomopolymerProbs :=
  { lookup := h.lookup }

/-- Parameter bundle `AlignmentParameters`. -/
structure AlignmentParameters where
  transition_probs : TransitionProbs
  emission_probs : EmissionProbs
  homopolymer_probs : HomopolymerProbs

/-- Parameter bundle `LnAlignmentParameters`. -/
structure LnAlignmentParameters where
  transition_probs : LnTransitionProbs
  emission_probs : LnEmissionProbs
  homopolymer_probs : LnHomopolymerProbs

/-- The conversion `AlignmentParameters::ln`. -/
def AlignmentParameters.ln (p : AlignmentParameters) : LnAlignmentParameters :=
  { transition_probs := p.transition_probs.ln
    emission_probs := p.emission_probs.ln
    homopolymer_probs := p.homopolymer_probs.ln }

/-- Loop body of `first_occ_vector`: state is (prev_char, prev_occ, current
index); one output entry per input character. -/
def firstOccAux : Char → Nat → Nat → List Char → List Nat
  | _, _, _, [] => []
  | pc, po, i, c :: rest =>
    if c = pc then po :: firstOccAux c po (i + 1) rest
    else i :: firstOccAux c i (i + 1) rest

/-- The function `first_occ_vector`, with the Rust initial state
(`prev_char = 'N'`, `prev_occ = 0`). -/
def first_occ_vector (seq : List Char) : List Nat := firstOccAux 'N' 0 0 seq

/-- Loop body of `last_occ_vector`: the Rust code iterates
`seq.iter().enumerate().rev()`, so the character list argument is the
reversed sequence and the index argument counts down. -/
def lastOccAux : Char → Nat → Nat → List Char → List Nat
  | _, _, _, [] => []
  | pc, po, i, c :: rest =>
    if c = pc then po :: lastOccAux c po (i - 1) rest
    else i :: lastOccAux c i (i - 1) rest

/-- The function `last_occ_vector`.  The Rust initialisation
`prev_occ = seq.len() - 1` is a `usize` subtraction; for the empty sequence
it underflows, and the wrapped value is never used because the loop body
never runs (here Nat subtraction gives `0`, equally unused).  The pushed
values are collected and reversed as in the source. -/
def last_occ_vector (seq : List Char) : List Nat :=
  (lastOccAux 'N' (seq.length - 1) (seq.length - 1) seq.reverse).reverse

/-- Convenience accessor for `first_occ_vector v[k]`. -/
def firstOccAt (seq : List Char) (k : Nat) : Nat := (first_occ_vector seq).getD k 0

/-- Convenience accessor for `last_occ_vector v[k]`. -/
def lastOccAt (seq : List Char) (k : Nat) : Nat := (last_occ_vector seq).getD k 0

/-- The effective band width `min_band_width + |v.len() - w.len()|`
(`((v.len() as i32) - (w.len() as i32)).abs() as usize` in the source). -/
def bandWidth (min_band_width n m : Nat) : Nat :=
  min_band_width + ((n : ℤ) - (m : ℤ)).natAbs

/-- The per-row band centre `(w.len() * i) / v.len()` (usize division). -/
def bandMiddle (n m i : Nat) : Nat := (m * i) / n

/-- The band start, exactly the source conditional. -/
def bandStart (bm half : Nat) : Nat := if bm ≥ half + 1 then bm - half else 1

/-- The band end, exactly the source conditional. -/
def bandEnd (bm half m : Nat) : Nat := if bm + half ≤ m then bm + half else m

/-- The columns evaluated in one row: `for j in band_start..(band_end + 1)`. -/
def rowCols (bs be : Nat) : List Nat := List.range' bs (be + 1 - bs)

/-- Rolling buffers of the two log-domain engines: previous row and current
row for the lower / middle / upper states. -/
structure Bufs where
  lp : Nat → ℚ
  mp : Nat → ℚ
  up : Nat → ℚ
  lc : Nat → ℚ
  mc : Nat → ℚ
  uc : Nat → ℚ

/-- Initialisation of `upper_prev`: `upper_prev[1] = deletion_from_match`
followed by `upper_prev[j] = upper_prev[j-1] + deletion_from_deletion` for
`j in 2..=m` (log-domain `+` is multiplication here). -/
def upperInit (t : LnTransitionProbs) (m : Nat) : Nat → ℚ :=
  (List.range' 2 (m - 1)).foldl
    (fun f j => upd f j (f (j - 1) * t.deletion_from_deletion))
    (upd (fun _ => 0) 1 t.deletion_from_match)

/-- Initial buffer state of the log-domain engines: everything `ln_zero`
except `middle_prev[0] = ln_one` and the `upper_prev` row. -/
def initBufs (t : LnTransitionProbs) (m : Nat) : Bufs :=
  { lp := fun _ => 0
    mp := upd (fun _ => 0) 0 1
    up := upperInit t m
    lc := fun _ => 0
    mc := fun _ => 0
    uc := fun _ => 0 }

/-- One cell `(i, j)` of `forward_algorithm_numerically_stable`'s inner loop. -/
def stableCell (v w : List Char) (t : LnTransitionProbs) (e : LnEmissionProbs)
    (i : Nat) (b : Bufs) (j : Nat) : Bufs :=
  let lower_continue := b.lp j * t.insertion_from_insertion
  let lower_from_middle := b.mp j * t.insertion_from_match
  let upper_continue := b.uc (j - 1) * t.deletion_from_deletion
  let upper_from_middle := b.mc (j - 1) * t.deletion_from_match
  let middle_from_lower := b.lp (j - 1) * t.match_from_insertion
  let middle_continue := b.mp (j - 1) * t.match_from_match
  let middle_from_upper := b.up (j - 1) * t.match_from_deletion
  let match_emission := if v.getD (i - 1) 'N' = w.getD (j - 1) 'N' then e.equal else e.not_equal
  let mval := match_emission * (middle_from_lower + middle_continue + middle_from_upper)
  { b with
    lc := upd b.lc j (e.insertion * (lower_continue + lower_from_middle))
    uc := upd b.uc j (e.deletion * (upper_continue + upper_from_middle))
    mc := upd b.mc j mval }

/-- The fold `for option in options { if option > max_option { ... } }` of
the Viterbi engine, starting from `ln_zero`. -/
def maxOption (opts : List ℚ) : ℚ := opts.foldl (fun acc o => if o > acc then o else acc) 0

/-- One cell `(i, j)` of `viterbi_max_scoring_alignment`'s inner loop. -/
def viterbiCell (v w : List Char) (t : LnTransitionProbs) (e : LnEmissionProbs)
    (i : Nat) (b : Bufs) (j : Nat) : Bufs :=
  let lower_continue := b.lp j * t.insertion_from_insertion
  let lower_from_middle := b.mp j * t.insertion_from_match
  let upper_continue := b.uc (j - 1) * t.deletion_from_deletion
  let upper_from_middle := b.mc (j - 1) * t.deletion_from_match
  let middle_from_lower := b.lp (j - 1) * t.match_from_insertion
  let middle_continue := b.mp (j - 1) * t.match_from_match
  let middle_from_upper := b.up (j - 1) * t.match_from_deletion
  let match_emission := if v.getD (i - 1) 'N' = w.getD (j - 1) 'N' then e.equal else e.not_equal
  let lval := if lower_continue > lower_from_middle then e.insertion * lower_continue
    else e.insertion * lower_from_middle
  let uval := if upper_continue > upper_from_middle then e.deletion * upper_continue
    else e.deletion * upper_from_middle
  let mval := match_emission * maxOption [middle_from_lower, middle_continue, middle_from_upper]
  { b with lc := upd b.lc j lval, uc := upd b.uc j uval, mc := upd b.mc j mval }

/-- One step of the copy-back loop
`upper_prev[j] = upper_curr[j]; middle_prev[j] = middle_curr[j]; lower_prev[j] = lower_curr[j]`. -/
def copyStep (bb : Bufs) (j : Nat) : Bufs :=
  { bb with
    up := upd bb.up j (bb.uc j)
    mp := upd bb.mp j (bb.mc j)
    lp := upd bb.lp j (bb.lc j) }

/-- The `band_start == 1` block: reset `middle_curr[0]` to `ln_zero` and
seed `lower_curr[0]` (`insertion_from_match` in row 1, geometric
continuation from `lower_prev[0]` afterwards). -/
def blockStep (t : LnTransitionProbs) (bs i : Nat) (b : Bufs) : Bufs :=
  if bs = 1 then
    let lc0 := if i = 1 then t.insertion_from_match else b.lp 0 * t.insertion_from_insertion
    { b with mc := upd b.mc 0 0, lc := upd b.lc 0 lc0 }
  else b

/-- The defensive poisoning of the stale previous-row slot `band_start - 2`
(the source writes `LogProb(f64::NAN)`; here the modelled poison value). -/
def poisonStep (bs : Nat) (poison : ℚ) (b : Bufs) : Bufs :=
  if bs ≥ 2 then
    { b with
      up := upd b.up (bs - 2) poison
      mp := upd b.mp (bs - 2) poison
      lp := upd b.lp (bs - 2) poison }
  else b

/-- The end-of-row reset `curr[band_start] = ln_zero` for all three states. -/
def resetStep (bs : Nat) (b : Bufs) : Bufs :=
  { b with
    uc := upd b.uc bs 0
    mc := upd b.mc bs 0
    lc := upd b.lc bs 0 }

/-- Shared row wrapper of the two log-domain engines: the `band_start == 1`
block, the cell loop (passed in as `cell`), the copy-back loop, the NaN
poisoning of `prev[band_start - 2]`, and the `curr[band_start]` reset. -/
def logRow (t : LnTransitionProbs) (n m bw : Nat) (poison : ℚ)
    (cell : Nat → Bufs → Nat → Bufs) (b : Bufs) (i : Nat) : Bufs :=
  let bm := bandMiddle n m i
  let bs := bandStart bm (bw / 2)
  let be := bandEnd bm (bw / 2) m
  resetStep bs
    (poisonStep bs poison
      ((List.range' (bs - 1) (be + 2 - bs)).foldl copyStep
        ((rowCols bs be).foldl (cell i) (blockStep t bs i b))))

/-- The function `forward_algorithm_numerically_stable`.  The result is the
probability denoted by the returned `LogProb`.  `none` models the panic of
the unconditional write `upper_prev[1] = ...` when `w` is empty (the
buffers have length `w.len() + 1 = 1`). -/
def forward_algorithm_numerically_stable (poison : ℚ) (v w : List Char)
    (params : LnAlignmentParameters) (min_band_width : Nat) : Option ℚ :=
  if w.length = 0 then none
  else
    let bw := bandWidth min_band_width v.length w.length
    let bfin := (List.range' 1 v.length).foldl
      (logRow params.transition_probs v.length w.length bw poison
        (stableCell v w params.transition_probs params.emission_probs))
      (initBufs params.transition_probs w.length)
    some (bfin.mp w.length)

/-- The function `viterbi_max_scoring_alignment`, with the same conventions
as the stable forward engine. -/
def viterbi_max_scoring_alignment (poison : ℚ) (v w : List Char)
    (params : LnAlignmentParameters) (min_band_width : Nat) : Option ℚ :=
  if w.length = 0 then none
  else
    let bw := bandWidth min_band_width v.length w.length
    let bfin := (List.range' 1 v.length).foldl
      (logRow params.transition_probs v.length w.length bw poison
        (viterbiCell v w params.transition_probs params.emission_probs))
      (initBufs params.transition_probs w.length)
    some (bfin.mp w.length)

/-- Full matrices of the non-stable engine, as functions of (row, column). -/
structure Mats where
  fl : Nat → Nat → ℚ
  fm : Nat → Nat → ℚ
  fu : Nat → Nat → ℚ

/-- Initialisation of row 0 of `forward_upper`: `forward_upper[0][1] = dfm`
then geometric continuation for `j in 2..=m`. -/
def upperRowInit (t : TransitionProbs) (m : Nat) (f : Nat → Nat → ℚ) : Nat → Nat → ℚ :=
  (List.range' 2 (m - 1)).foldl
    (fun g j => updM g 0 j (g 0 (j - 1) * t.deletion_from_deletion))
    (updM f 0 1 t.deletion_from_match)

/-- Initialisation of column 0 of `forward_lower`: `forward_lower[1][0] = ifm`
then geometric continuation for `i in 2..=n`. -/
def lowerColInit (t : TransitionProbs) (n : Nat) (f : Nat → Nat → ℚ) : Nat → Nat → ℚ :=
  (List.range' 2 (n - 1)).foldl
    (fun g i => updM g i 0 (g (i - 1) 0 * t.insertion_from_insertion))
    (updM f 1 0 t.insertion_from_match)

/-- The `indices` vector of the homopolymer shortcut: the left column of the
homopolymer square from row `i - 1` down to `fv + 1`, the corner
`(fv, fw)`, then the top row from `fw + 1` to `j - 1`. -/
def hpIndices (fv fw i j : Nat) : List (Nat × Nat) :=
  ((List.range' (fv + 1) (i - (fv + 1))).reverse.map (fun h => (h, fw)))
    ++ [(fv, fw)]
    ++ ((List.range' (fw + 1) (j - (fw + 1))).map (fun h => (fv, h)))

/-- One accumulated term of the homopolymer shortcut:
`(lower + middle + upper at the boundary cell) * prob_homopolymer`, where
the table key is built with `hp_len_ref = j - h_j` and
`hp_len_read = i - h_i` exactly as the source does, and a missing key
contributes probability `0`. -/
def hpContribution (M : Mats) (hp : HomopolymerProbs) (base : Char) (i j : Nat)
    (c : Nat × Nat) : ℚ :=
  (M.fl c.1 c.2 + M.fm c.1 c.2 + M.fu c.1 c.2) * ((hp.lookup base (j - c.2) (i - c.1)).getD 0)

/-- Value accumulated into `forward_middle[i][j]` by the homopolymer
shortcut (the cell holds `0` beforehand, so the `+=` loop computes this sum). -/
def hpSquareSum (M : Mats) (hp : HomopolymerProbs) (base : Char) (fv fw i j : Nat) : ℚ :=
  ((hpIndices fv fw i j).map (hpContribution M hp base i j)).sum

/-- One cell `(i, j)` of `forward_algorithm_non_numerically_stable`'s inner
loop, including the homopolymer branch with its `continue`. -/
def nonStableCell (v w : List Char) (P : AlignmentParameters) (i : Nat)
    (M : Mats) (j : Nat) : Mats :=
  let fv := firstOccAt v (i - 1)
  let fw := firstOccAt w (j - 1)
  let lv := lastOccAt v (i - 1)
  let lw := lastOccAt w (j - 1)
  if v.getD (i - 1) 'N' = w.getD (j - 1) 'N' ∧ (fv ≠ i - 1 ∨ fw ≠ j - 1) then
    if ¬(lv = i - 1 ∨ lw = j - 1) then M
    else
      let hval := hpSquareSum M P.homopolymer_probs (v.getD (i - 1) 'N') fv fw i j
      { M with fm := updM M.fm i j hval }
  else
    let t := P.transition_probs
    let e := P.emission_probs
    let lower_continue := M.fl (i - 1) j * t.insertion_from_insertion
    let lower_from_middle := M.fm (i - 1) j * t.insertion_from_match
    let upper_continue := M.fu i (j - 1) * t.deletion_from_deletion
    let upper_from_middle := M.fm i (j - 1) * t.deletion_from_match
    let middle_from_lower := M.fl (i - 1) (j - 1) * t.match_from_insertion
    let middle_continue := M.fm (i - 1) (j - 1) * t.match_from_match
    let middle_from_upper := M.fu (i - 1) (j - 1) * t.match_from_deletion
    let match_emission :=
      if v.getD (i - 1) 'N' = w.getD (j - 1) 'N' then e.equal else e.not_equal
    let mval := match_emission * (middle_from_lower + middle_continue + middle_from_upper)
    { M with
      fl := updM M.fl i j (e.insertion * (lower_continue + lower_from_middle))
      fu := updM M.fu i j (e.deletion * (upper_continue + upper_from_middle))
      fm := updM M.fm i j mval }

/-- One banded row of the non-stable engine. -/
def nonStableRow (v w : List Char) (P : AlignmentParameters) (bw : Nat)
    (M : Mats) (i : Nat) : Mats :=
  let bm := bandMiddle v.length w.length i
  (rowCols (bandStart bm (bw / 2)) (bandEnd bm (bw / 2) w.length)).foldl
    (nonStableCell v w P i) M

/-- The matrices after initialisation (`middle[0][0] = 1`, the geometric
`upper` row and `lower` column). -/
def nonStableInit (t : TransitionProbs) (n m : Nat) : Mats :=
  { fl := lowerColInit t n (fun _ _ => 0)
    fm := updM (fun _ _ => 0) 0 0 1
    fu := upperRowInit t m (fun _ _ => 0) }

/-- The matrices after all banded rows of the non-stable engine. -/
def nonStableMats (v w : List Char) (P : AlignmentParameters) (min_band_width : Nat) : Mats :=
  (List.range' 1 v.length).foldl
    (nonStableRow v w P (bandWidth min_band_width v.length w.length))
    (nonStableInit P.transition_probs v.length w.length)

/-- The function `forward_algorithm_non_numerically_stable`.  The returned
`LogProb::from(Prob(middle[n][m]))` denotes the log of `middle[n][m]`, so in
the probability representation the result is `middle[n][m]` itself.
`none` models the two unconditional out-of-bounds writes for empty inputs:
`forward_upper[0][1]` when `w` is empty and `forward_lower[1][0]` when `v`
is empty. -/
def forward_algorithm_non_numerically_stable (v w : List Char)
    (P : AlignmentParameters) (min_band_width : Nat) : Option ℚ :=
  if w.length = 0 then none
  else if v.length = 0 then none
  else some ((nonStableMats v w P min_band_width).fm v.length w.length)

/-! Band arithmetic lemmas shared by the engines. -/

theorem bandMiddle_mono {n m i i' : Nat} (h : i ≤ i') : bandMiddle n m i ≤ bandMiddle n m i' :=
  Nat.div_le_div_right (Nat.mul_le_mul_left m h)

theorem bandMiddle_le {n m i : Nat} (hn : 0 < n) (hi : i ≤ n) : bandMiddle n m i ≤ m := by
  unfold bandMiddle
  calc (m * i) / n ≤ (m * n) / n := Nat.div_le_div_right (Nat.mul_le_mul_left m hi)
    _ = m := Nat.mul_div_cancel m hn

theorem bandMiddle_last {n m : Nat} (hn : 0 < n) : bandMiddle n m n = m := by
  unfold bandMiddle
  exact Nat.mul_div_cancel m hn

theorem bandStart_mono {bm bm' h : Nat} (hb : bm ≤ bm') : bandStart bm h ≤ bandStart bm' h := by
  unfold bandStart
  split <;> split <;> omega

theorem bandStart_pos (bm h : Nat) : 1 ≤ bandStart bm h := by
  unfold bandStart
  split <;> omega

theorem bandStart_le_max (bm h : Nat) : bandStart bm h ≤ max 1 bm := by
  unfold bandStart
  split <;> omega

theorem bandEnd_le (bm h m : Nat) : bandEnd bm h m ≤ m := by
  unfold bandEnd
  split <;> omega

theorem bandEnd_ge {bm h m : Nat} (hb : bm ≤ m) : bm ≤ bandEnd bm h m := by
  unfold bandEnd
  split <;> omega

theorem mem_rowCols {bs be j : Nat} : j ∈ rowCols bs be ↔ bs ≤ j ∧ j ≤ be ∧ bs ≤ be := by
  unfold rowCols
  rw [List.mem_range'_1]
  omega

/-! Generic fold helpers. -/

theorem foldl_range'_one_succ {α : Type} (f : α → Nat → α) (b : α) (r : Nat) :
    (List.range' 1 (r + 1)).foldl f b = f ((List.range' 1 r).foldl f b) (1 + r) := by
  rw [List.range'_1_concat, List.foldl_append, List.foldl_cons, List.foldl_nil]

/-! Frame lemmas: the cell loops of the log-domain engines never modify the
previous-row buffers, and only touch the current-row buffers at the column
being evaluated. -/

theorem stableCell_prev (v w : List Char) (t : LnTransitionProbs) (e : LnEmissionProbs)
    (i : Nat) (b : Bufs) (j : Nat) :
    (stableCell v w t e i b j).lp = b.lp ∧ (stableCell v w t e i b j).mp = b.mp ∧
      (stableCell v w t e i b j).up = b.up :=
  ⟨rfl, rfl, rfl⟩

theorem viterbiCell_prev (v w : List Char) (t : LnTransitionProbs) (e : LnEmissionProbs)
    (i : Nat) (b : Bufs) (j : Nat) :
    (viterbiCell v w t e i b j).lp = b.lp ∧ (viterbiCell v w t e i b j).mp = b.mp ∧
      (viterbiCell v w t e i b j).up = b.up :=
  ⟨rfl, rfl, rfl⟩

theorem stableCell_curr_ne (v w : List Char) (t : LnTransitionProbs) (e : LnEmissionProbs)
    (i : Nat) (b : Bufs) (j k : Nat) (hk : k ≠ j) :
    (stableCell v w t e i b j).lc k = b.lc k ∧ (stableCell v w t e i b j).mc k = b.mc k ∧
      (stableCell v w t e i b j).uc k = b.uc k := by
  refine ⟨?_, ?_, ?_⟩ <;> simp [stableCell, upd, hk]

theorem viterbiCell_curr_ne (v w : List Char) (t : LnTransitionProbs) (e : LnEmissionProbs)
    (i : Nat) (b : Bufs) (j k : Nat) (hk : k ≠ j) :
    (viterbiCell v w t e i b j).lc k = b.lc k ∧ (viterbiCell v w t e i b j).mc k = b.mc k ∧
      (viterbiCell v w t e i b j).uc k = b.uc k := by
  refine ⟨?_, ?_, ?_⟩ <;> simp [viterbiCell, upd, hk]

/-! Poison-independence machinery.  `EqAbove K b b'` says the two buffer
states agree on every previous-row slot at index `≥ K` and on every
current-row slot; the poisoned slots live strictly below the band and stay
below `K` forever, so two runs that differ only in the poison value stay
related. -/

def EqAbove (K : Nat) (b b' : Bufs) : Prop :=
  (∀ k, K ≤ k → b.lp k = b'.lp k ∧ b.mp k = b'.mp k ∧ b.up k = b'.up k) ∧
    ∀ k, b.lc k = b'.lc k ∧ b.mc k = b'.mc k ∧ b.uc k = b'.uc k

theorem eqAbove_refl (K : Nat) (b : Bufs) : EqAbove K b b :=
  ⟨fun _ _ => ⟨rfl, rfl, rfl⟩, fun _ => ⟨rfl, rfl, rfl⟩⟩

theorem eqAbove_mono {K K' : Nat} {b b' : Bufs} (h : K ≤ K') (hb : EqAbove K b b') :
    EqAbove K' b b' :=
  ⟨fun k hk => hb.1 k (le_trans h hk), hb.2⟩

theorem stableCell_eqAbove {K : Nat} (v w : List Char) (t : LnTransitionProbs)
    (e : LnEmissionProbs) (i : Nat) {b b' : Bufs} (hb : EqAbove K b b') (j : Nat)
    (hj : K + 1 ≤ j) : EqAbove K (stableCell v w t e i b j) (stableCell v w t e i b' j) := by
  obtain ⟨hp, hc⟩ := hb
  obtain ⟨e1, e2, e3⟩ := hp j (by omega)
  obtain ⟨f1, f2, f3⟩ := hp (j - 1) (by omega)
  obtain ⟨g1, g2, g3⟩ := hc (j - 1)
  constructor
  · intro k hk
    simpa [stableCell] using hp k hk
  · intro k
    by_cases hk : k = j
    · subst hk
      refine ⟨?_, ?_, ?_⟩ <;> simp [stableCell, upd, e1, e2, e3, f1, f2, f3, g1, g2, g3]
    · obtain ⟨c1, c2, c3⟩ := stableCell_curr_ne v w t e i b j k hk
      obtain ⟨d1, d2, d3⟩ := stableCell_curr_ne v w t e i b' j k hk
      obtain ⟨h1, h2, h3⟩ := hc k
      exact ⟨by rw [c1, d1, h1], by rw [c2, d2, h2], by rw [c3, d3, h3]⟩

theorem viterbiCell_eqAbove {K : Nat} (v w : List Char) (t : LnTransitionProbs)
    (e : LnEmissionProbs) (i : Nat) {b b' : Bufs} (hb : EqAbove K b b') (j : Nat)
    (hj : K + 1 ≤ j) : EqAbove K (viterbiCell v w t e i b j) (viterbiCell v w t e i b' j) := by
  obtain ⟨hp, hc⟩ := hb
  obtain ⟨e1, e2, e3⟩ := hp j (by omega)
  obtain ⟨f1, f2, f3⟩ := hp (j - 1) (by omega)
  obtain ⟨g1, g2, g3⟩ := hc (j - 1)
  constructor
  · intro k hk
    simpa [viterbiCell] using hp k hk
  · intro k
    by_cases hk : k = j
    · subst hk
      refine ⟨?_, ?_, ?_⟩ <;> simp [viterbiCell, upd, e1, e2, e3, f1, f2, f3, g1, g2, g3]
    · obtain ⟨c1, c2, c3⟩ := viterbiCell_curr_ne v w t e i b j k hk
      obtain ⟨d1, d2, d3⟩ := viterbiCell_curr_ne v w t e i b' j k hk
      obtain ⟨h1, h2, h3⟩ := hc k
      exact ⟨by rw [c1, d1, h1], by rw [c2, d2, h2], by rw [c3, d3, h3]⟩

theorem foldl_cell_eqAbove {K : Nat} (cell : Bufs → Nat → Bufs)
    (hcell : ∀ bb bb' j, EqAbove K bb bb' → K + 1 ≤ j → EqAbove K (cell bb j) (cell bb' j))
    (js : List Nat) (hjs : ∀ j ∈ js, K + 1 ≤ j) {b b' : Bufs} (hb : EqAbove K b b') :
    EqAbove K (js.foldl cell b) (js.foldl cell b') := by
  induction js generalizing b b' with
  | nil => exact hb
  | cons j rest ih =>
    rw [List.foldl_cons, List.foldl_cons]
    exact ih (fun x hx => hjs x (List.mem_cons_of_mem j hx))
      (hcell b b' j hb (hjs j (List.mem_cons_self j rest)))

theorem copyStep_eqAbove {K : Nat} {b b' : Bufs} (hb : EqAbove K b b') (j : Nat) :
    EqAbove K (copyStep b j) (copyStep b' j) := by
  obtain ⟨hp, hc⟩ := hb
  constructor
  · intro k hk
    obtain ⟨p1, p2, p3⟩ := hp k hk
    obtain ⟨c1, c2, c3⟩ := hc j
    by_cases hkj : k = j
    · subst hkj
      refine ⟨?_, ?_, ?_⟩ <;> simp [copyStep, upd, c1, c2, c3]
    · refine ⟨?_, ?_, ?_⟩ <;> simp [copyStep, upd, hkj, p1, p2, p3]
  · intro k
    exact hc k

theorem foldl_copy_eqAbove {K : Nat} (js : List Nat) {b b' : Bufs} (hb : EqAbove K b b') :
    EqAbove K (js.foldl copyStep b) (js.foldl copyStep b') := by
  induction js generalizing b b' with
  | nil => exact hb
  | cons j rest ih =>
    rw [List.foldl_cons, List.foldl_cons]
    exact ih (copyStep_eqAbove hb j)

theorem blockStep_eqAbove {K : Nat} (t : LnTransitionProbs) (bs i : Nat) {b b' : Bufs}
    (hb : EqAbove K b b') (hbs : K + 1 ≤ bs) :
    EqAbove K (blockStep t bs i b) (blockStep t bs i b') := by
  obtain ⟨hp, hc⟩ := hb
  unfold blockStep
  split
  · rename_i h1
    have hK0 : K = 0 := by omega
    obtain ⟨p1, _, _⟩ := hp 0 (by omega)
    constructor
    · intro k hk
      exact hp k hk
    · intro k
      obtain ⟨c1, c2, c3⟩ := hc k
      refine ⟨?_, ?_, c3⟩ <;> by_cases hk0 : k = 0
      · subst hk0
        simp [upd, p1]
      · simp [upd, hk0, c1]
      · subst hk0
        simp [upd]
      · simp [upd, hk0, c2]
  · exact ⟨hp, hc⟩

theorem poisonStep_eqAbove {K : Nat} (bs : Nat) (p p' : ℚ) {b b' : Bufs}
    (hb : EqAbove K b b') (hbs : bs - 1 ≤ K) :
    EqAbove K (poisonStep bs p b) (poisonStep bs p' b') := by
  obtain ⟨hp, hc⟩ := hb
  unfold poisonStep
  split
  · rename_i h2
    constructor
    · intro k hk
      obtain ⟨p1, p2, p3⟩ := hp k hk
      have hkne : k ≠ bs - 2 := by omega
      refine ⟨?_, ?_, ?_⟩ <;> simp [upd, hkne, p1, p2, p3]
    · exact hc
  · exact ⟨hp, hc⟩

theorem resetStep_eqAbove {K : Nat} (bs : Nat) {b b' : Bufs} (hb : EqAbove K b b') :
    EqAbove K (resetStep bs b) (resetStep bs b') := by
  obtain ⟨hp, hc⟩ := hb
  refine ⟨hp, fun k => ?_⟩
  obtain ⟨c1, c2, c3⟩ := hc k
  by_cases hk : k = bs
  · subst hk
    refine ⟨?_, ?_, ?_⟩ <;> simp [resetStep, upd]
  · refine ⟨?_, ?_, ?_⟩ <;> simp [resetStep, upd, hk, c1, c2, c3]

/-- A full row of either log-domain engine preserves buffer agreement,
shifting the guaranteed region up to the new `band_start - 1`.  The two
runs may use different poison values. -/
theorem logRow_eqAbove {K : Nat} (t : LnTransitionProbs) (n m bw : Nat) (p p' : ℚ)
    (cell : Nat → Bufs → Nat → Bufs) (i : Nat)
    (hcell : ∀ bb bb' j, EqAbove K bb bb' → K + 1 ≤ j → EqAbove K (cell i bb j) (cell i bb' j))
    {b b' : Bufs} (hb : EqAbove K b b')
    (hK : K + 1 ≤ bandStart (bandMiddle n m i) (bw / 2)) :
    EqAbove (bandStart (bandMiddle n m i) (bw / 2) - 1)
      (logRow t n m bw p cell b i) (logRow t n m bw p' cell b' i) := by
  unfold logRow
  have h1 := blockStep_eqAbove t (bandStart (bandMiddle n m i) (bw / 2)) i hb hK
  have h2 := foldl_cell_eqAbove (cell i) hcell
    (rowCols (bandStart (bandMiddle n m i) (bw / 2)) (bandEnd (bandMiddle n m i) (bw / 2) m))
    (fun j hj => by
      have := mem_rowCols.mp hj
      omega) h1
  have h3 := eqAbove_mono (show K ≤ bandStart (bandMiddle n m i) (bw / 2) - 1 by omega)
    (foldl_copy_eqAbove
      (List.range' (bandStart (bandMiddle n m i) (bw / 2) - 1)
        (bandEnd (bandMiddle n m i) (bw / 2) m + 2 - bandStart (bandMiddle n m i) (bw / 2))) h2)
  have h4 := poisonStep_eqAbove (bandStart (bandMiddle n m i) (bw / 2)) p p' h3 (by omega)
  exact resetStep_eqAbove _ h4

/-- Agreement carried over a whole engine run: after `r` rows the states of
runs with different poison values agree from `band_start(r) - 1` up. -/
theorem logRun_eqAbove (t : LnTransitionProbs) (n m bw : Nat) (p p' : ℚ)
    (cell : Nat → Bufs → Nat → Bufs)
    (hcell : ∀ K i bb bb' j, EqAbove K bb bb' → K + 1 ≤ j →
      EqAbove K (cell i bb j) (cell i bb' j))
    (b0 : Bufs) (r : Nat) :
    EqAbove (bandStart (bandMiddle n m r) (bw / 2) - 1)
      ((List.range' 1 r).foldl (logRow t n m bw p cell) b0)
      ((List.range' 1 r).foldl (logRow t n m bw p' cell) b0) := by
  induction r with
  | zero => exact eqAbove_refl _ b0
  | succ r ih =>
    rw [foldl_range'_one_succ, foldl_range'_one_succ]
    have hmono : bandStart (bandMiddle n m r) (bw / 2) ≤
        bandStart (bandMiddle n m (1 + r)) (bw / 2) :=
      bandStart_mono (bandMiddle_mono (by omega))
    have hpos := bandStart_pos (bandMiddle n m r) (bw / 2)
    have hrow := logRow_eqAbove t n m bw p p' cell (1 + r)
      (hcell (bandStart (bandMiddle n m r) (bw / 2) - 1) (1 + r)) ih (by omega)
    rw [show bandMiddle n m (r + 1) = bandMiddle n m (1 + r) from by rw [Nat.add_comm]]
    exact hrow

/-- Poison independence for the stable forward engine, with no hypotheses:
the value written into the stale slot `band_start - 2` never influences the
returned value. -/
theorem stable_poison_irrelevant (p p' : ℚ) (v w : List Char)
    (params : LnAlignmentParameters) (min_band_width : Nat) :
    forward_algorithm_numerically_stable p v w params min_band_width =
      forward_algorithm_numerically_stable p' v w params min_band_width := by
  unfold forward_algorithm_numerically_stable
  split
  · rfl
  · rename_i hw
    dsimp only
    have hrun := logRun_eqAbove params.transition_probs v.length w.length
      (bandWidth min_band_width v.length w.length) p p'
      (stableCell v w params.transition_probs params.emission_probs)
      (fun K i bb bb' j hb hjk =>
        stableCell_eqAbove v w params.transition_probs params.emission_probs i hb j hjk)
      (initBufs params.transition_probs w.length) v.length
    have hbm := bandMiddle_last (n := v.length) (m := w.length)
    have hbs := bandStart_le_max (bandMiddle v.length w.length v.length)
      (bandWidth min_band_width v.length w.length / 2)
    have hm : 0 < w.length := Nat.pos_of_ne_zero hw
    rcases Nat.eq_zero_or_pos v.length with hn | hn
    · rw [hn]
      rfl
    · have hbm2 := hbm hn
      have hKm : bandStart (bandMiddle v.length w.length v.length)
          (bandWidth min_band_width v.length w.length / 2) - 1 ≤ w.length := by
        omega
      obtain ⟨_, hmp, _⟩ := hrun.1 w.length hKm
      rw [hmp]

/-- Poison independence for the Viterbi engine. -/
theorem viterbi_poison_irrelevant (p p' : ℚ) (v w : List Char)
    (params : LnAlignmentParameters) (min_band_width : Nat) :
    viterbi_max_scoring_alignment p v w params min_band_width =
      viterbi_max_scoring_alignment p' v w params min_band_width := by
  unfold viterbi_max_scoring_alignment
  split
  · rfl
  · rename_i hw
    dsimp only
    have hrun := logRun_eqAbove params.transition_probs v.length w.length
      (bandWidth min_band_width v.length w.length) p p'
      (viterbiCell v w params.transition_probs params.emission_probs)
      (fun K i bb bb' j hb hjk =>
        viterbiCell_eqAbove v w params.transition_probs params.emission_probs i hb j hjk)
      (initBufs params.transition_probs w.length) v.length
    have hbm := bandMiddle_last (n := v.length) (m := w.length)
    have hbs := bandStart_le_max (bandMiddle v.length w.length v.length)
      (bandWidth min_band_width v.length w.length / 2)
    have hm : 0 < w.length := Nat.pos_of_ne_zero hw
    rcases Nat.eq_zero_or_pos v.length with hn | hn
    · rw [hn]
      rfl
    · have hbm2 := hbm hn
      have hKm : bandStart (bandMiddle v.length w.length v.length)
          (bandWidth min_band_width v.length w.length / 2) - 1 ≤ w.length := by
        omega
      obtain ⟨_, hmp, _⟩ := hrun.1 w.length hKm
      rw [hmp]

/-! Cell value lemmas: the value written at column `j` by each engine's cell. -/

theorem stableCell_lc (v w : List Char) (t : LnTransitionProbs) (e : LnEmissionProbs)
    (i : Nat) (b : Bufs) (j : Nat) :
    (stableCell v w t e i b j).lc j =
      e.insertion * (b.lp j * t.insertion_from_insertion + b.mp j * t.insertion_from_match) := by
  simp [stableCell, upd]

theorem stableCell_uc (v w : List Char) (t : LnTransitionProbs) (e : LnEmissionProbs)
    (i : Nat) (b : Bufs) (j : Nat) :
    (stableCell v w t e i b j).uc j =
      e.deletion * (b.uc (j - 1) * t.deletion_from_deletion +
        b.mc (j - 1) * t.deletion_from_match) := by
  simp [stableCell, upd]

theorem stableCell_mc (v w : List Char) (t : LnTransitionProbs) (e : LnEmissionProbs)
    (i : Nat) (b : Bufs) (j : Nat) :
    (stableCell v w t e i b j).mc j =
      (if v.getD (i - 1) 'N' = w.getD (j - 1) 'N' then e.equal else e.not_equal) *
        (b.lp (j - 1) * t.match_from_insertion + b.mp (j - 1) * t.match_from_match +
          b.up (j - 1) * t.match_from_deletion) := by
  simp [stableCell, upd]

theorem viterbiCell_lc (v w : List Char) (t : LnTransitionProbs) (e : LnEmissionProbs)
    (i : Nat) (b : Bufs) (j : Nat) :
    (viterbiCell v w t e i b j).lc j =
      (if b.lp j * t.insertion_from_insertion > b.mp j * t.insertion_from_match
       then e.insertion * (b.lp j * t.insertion_from_insertion)
       else e.insertion * (b.mp j * t.insertion_from_match)) := by
  simp [viterbiCell, upd]

theorem viterbiCell_uc (v w : List Char) (t : LnTransitionProbs) (e : LnEmissionProbs)
    (i : Nat) (b : Bufs) (j : Nat) :
    (viterbiCell v w t e i b j).uc j =
      (if b.uc (j - 1) * t.deletion_from_deletion > b.mc (j - 1) * t.deletion_from_match
       then e.deletion * (b.uc (j - 1) * t.deletion_from_deletion)
       else e.deletion * (b.mc (j - 1) * t.deletion_from_match)) := by
  simp [viterbiCell, upd]

theorem viterbiCell_mc (v w : List Char) (t : LnTransitionProbs) (e : LnEmissionProbs)
    (i : Nat) (b : Bufs) (j : Nat) :
    (viterbiCell v w t e i b j).mc j =
      (if v.getD (i - 1) 'N' = w.getD (j - 1) 'N' then e.equal else e.not_equal) *
        maxOption [b.lp (j - 1) * t.match_from_insertion, b.mp (j - 1) * t.match_from_match,
          b.up (j - 1) * t.match_from_deletion] := by
  simp [viterbiCell, upd]

/-! Arithmetic helpers for the max-versus-sum comparison. -/

theorem if_max_nonneg {c x1 x2 : ℚ} (hc : 0 ≤ c) (h1 : 0 ≤ x1) (h2 : 0 ≤ x2) :
    0 ≤ (if x1 > x2 then c * x1 else c * x2) := by
  split
  · exact mul_nonneg hc h1
  · exact mul_nonneg hc h2

theorem if_max_le {c x1 x2 y1 y2 : ℚ} (hc : 0 ≤ c) (h1 : 0 ≤ x1) (h2 : 0 ≤ x2)
    (g1 : x1 ≤ y1) (g2 : x2 ≤ y2) :
    (if x1 > x2 then c * x1 else c * x2) ≤ c * (y1 + y2) := by
  have ha : x1 ≤ y1 + y2 := by linarith
  have hb : x2 ≤ y1 + y2 := by linarith
  split
  · exact mul_le_mul_of_nonneg_left ha hc
  · exact mul_le_mul_of_nonneg_left hb hc

theorem maxOption_three {x1 x2 x3 y1 y2 y3 : ℚ} (h1 : 0 ≤ x1) (h2 : 0 ≤ x2) (h3 : 0 ≤ x3)
    (g1 : x1 ≤ y1) (g2 : x2 ≤ y2) (g3 : x3 ≤ y3) :
    0 ≤ maxOption [x1, x2, x3] ∧ maxOption [x1, x2, x3] ≤ y1 + y2 + y3 := by
  simp only [maxOption, List.foldl_cons, List.foldl_nil]
  constructor <;> split_ifs <;> linarith

/-! Nonnegativity assumptions on a log-domain parameter bundle.  These hold
automatically for the source: any `LogProb` exponentiates to a value `≥ 0`. -/

def NonnegT (t : LnTransitionProbs) : Prop :=
  0 ≤ t.match_from_match ∧ 0 ≤ t.insertion_from_match ∧ 0 ≤ t.deletion_from_match ∧
    0 ≤ t.insertion_from_insertion ∧ 0 ≤ t.match_from_insertion ∧
    0 ≤ t.deletion_from_deletion ∧ 0 ≤ t.match_from_deletion

def NonnegE (e : LnEmissionProbs) : Prop :=
  0 ≤ e.equal ∧ 0 ≤ e.not_equal ∧ 0 ≤ e.insertion ∧ 0 ≤ e.deletion

def NonnegParams (P : LnAlignmentParameters) : Prop :=
  NonnegT P.transition_probs ∧ NonnegE P.emission_probs

instance (t : LnTransitionProbs) : Decidable (NonnegT t) := by
  unfold NonnegT
  infer_instance

instance (e : LnEmissionProbs) : Decidable (NonnegE e) := by
  unfold NonnegE
  infer_instance

instance (P : LnAlignmentParameters) : Decidable (NonnegParams P) := by
  unfold NonnegParams
  infer_instance

/-- Comparison relation between a Viterbi buffer state `a` and a stable
forward buffer state `b`: `a` is nonnegative and pointwise at most `b` on
every previous-row slot at index `≥ K` and on every current-row slot. -/
def NonnegLe (K : Nat) (a b : Bufs) : Prop :=
  (∀ k, K ≤ k → (0 ≤ a.lp k ∧ a.lp k ≤ b.lp k) ∧ (0 ≤ a.mp k ∧ a.mp k ≤ b.mp k) ∧
    (0 ≤ a.up k ∧ a.up k ≤ b.up k)) ∧
    ∀ k, (0 ≤ a.lc k ∧ a.lc k ≤ b.lc k) ∧ (0 ≤ a.mc k ∧ a.mc k ≤ b.mc k) ∧
      (0 ≤ a.uc k ∧ a.uc k ≤ b.uc k)

theorem nonnegLe_mono {K K' : Nat} {a b : Bufs} (h : K ≤ K') (hb : NonnegLe K a b) :
    NonnegLe K' a b :=
  ⟨fun k hk => hb.1 k (le_trans h hk), hb.2⟩

theorem cellVS_le {K : Nat} (v w : List Char) (t : LnTransitionProbs) (e : LnEmissionProbs)
    (ht : NonnegT t) (he : NonnegE e) (i : Nat) {a b : Bufs} (hab : NonnegLe K a b)
    (j : Nat) (hj : K + 1 ≤ j) :
    NonnegLe K (viterbiCell v w t e i a j) (stableCell v w t e i b j) := by
  obtain ⟨hp, hc⟩ := hab
  obtain ⟨⟨pl0, pl1⟩, ⟨pm0, pm1⟩, ⟨pu0, pu1⟩⟩ := hp j (by omega)
  obtain ⟨⟨ql0, ql1⟩, ⟨qm0, qm1⟩, ⟨qu0, qu1⟩⟩ := hp (j - 1) (by omega)
  obtain ⟨⟨rl0, rl1⟩, ⟨rm0, rm1⟩, ⟨ru0, ru1⟩⟩ := hc (j - 1)
  obtain ⟨t1, t2, t3, t4, t5, t6, t7⟩ := ht
  obtain ⟨e1, e2, e3, e4⟩ := he
  have hem : 0 ≤ (if v.getD (i - 1) 'N' = w.getD (j - 1) 'N' then e.equal else e.not_equal) := by
    split
    · exact e1
    · exact e2
  constructor
  · intro k hk
    have := hp k hk
    simpa [viterbiCell, stableCell] using this
  · intro k
    by_cases hk : k = j
    · subst hk
      refine ⟨?_, ?_, ?_⟩
      · rw [viterbiCell_lc, stableCell_lc]
        constructor
        · exact if_max_nonneg e3 (mul_nonneg pl0 t4) (mul_nonneg pm0 t2)
        · exact if_max_le e3 (mul_nonneg pl0 t4) (mul_nonneg pm0 t2)
            (mul_le_mul_of_nonneg_right pl1 t4) (mul_le_mul_of_nonneg_right pm1 t2)
      · rw [viterbiCell_mc, stableCell_mc]
        have h3 := maxOption_three (mul_nonneg ql0 t5) (mul_nonneg qm0 t1)
          (mul_nonneg qu0 t7) (mul_le_mul_of_nonneg_right ql1 t5)
          (mul_le_mul_of_nonneg_right qm1 t1) (mul_le_mul_of_nonneg_right qu1 t7)
        constructor
        · exact mul_nonneg hem h3.1
        · exact mul_le_mul_of_nonneg_left h3.2 hem
      · rw [viterbiCell_uc, stableCell_uc]
        constructor
        · exact if_max_nonneg e4 (mul_nonneg ru0 t6) (mul_nonneg rm0 t3)
        · exact if_max_le e4 (mul_nonneg ru0 t6) (mul_nonneg rm0 t3)
            (mul_le_mul_of_nonneg_right ru1 t6) (mul_le_mul_of_nonneg_right rm1 t3)
    · obtain ⟨c1, c2, c3⟩ := viterbiCell_curr_ne v w t e i a j k hk
      obtain ⟨d1, d2, d3⟩ := stableCell_curr_ne v w t e i b j k hk
      obtain ⟨x1, x2, x3⟩ := hc k
      exact ⟨by rw [c1, d1]; exact x1, by rw [c2, d2]; exact x2, by rw [c3, d3]; exact x3⟩

theorem foldl_cellVS_le {K : Nat} (cellA cellB : Bufs → Nat → Bufs)
    (hcell : ∀ aa bb j, NonnegLe K aa bb → K + 1 ≤ j → NonnegLe K (cellA aa j) (cellB bb j))
    (js : List Nat) (hjs : ∀ j ∈ js, K + 1 ≤ j) {a b : Bufs} (hab : NonnegLe K a b) :
    NonnegLe K (js.foldl cellA a) (js.foldl cellB b) := by
  induction js generalizing a b with
  | nil => exact hab
  | cons j rest ih =>
    rw [List.foldl_cons, List.foldl_cons]
    exact ih (fun x hx => hjs x (List.mem_cons_of_mem j hx))
      (hcell a b j hab (hjs j (List.mem_cons_self j rest)))

theorem blockStep_le {K : Nat} (t : LnTransitionProbs) (ht : NonnegT t) (bs i : Nat)
    {a b : Bufs} (hab : NonnegLe K a b) (hbs : K + 1 ≤ bs) :
    NonnegLe K (blockStep t bs i a) (blockStep t bs i b) := by
  obtain ⟨hp, hc⟩ := hab
  obtain ⟨t1, t2, t3, t4, t5, t6, t7⟩ := ht
  unfold blockStep
  split
  · obtain ⟨⟨pl0, pl1⟩, _, _⟩ := hp 0 (by omega)
    refine ⟨hp, fun k => ?_⟩
    obtain ⟨x1, x2, x3⟩ := hc k
    by_cases hk0 : k = 0
    · subst hk0
      refine ⟨?_, ?_, x3⟩ <;> simp only [upd_same]
      · split
        · exact ⟨t2, le_refl _⟩
        · exact ⟨mul_nonneg pl0 t4, mul_le_mul_of_nonneg_right pl1 t4⟩
      · exact ⟨le_refl 0, le_refl 0⟩
    · refine ⟨?_, ?_, x3⟩ <;> simp only [upd, hk0, if_false]
      · exact x1
      · exact x2
  · exact ⟨hp, hc⟩

theorem copyStep_le {K : Nat} {a b : Bufs} (hab : NonnegLe K a b) (j : Nat) :
    NonnegLe K (copyStep a j) (copyStep b j) := by
  obtain ⟨hp, hc⟩ := hab
  constructor
  · intro k hk
    obtain ⟨p1, p2, p3⟩ := hp k hk
    obtain ⟨c1, c2, c3⟩ := hc j
    by_cases hkj : k = j
    · subst hkj
      refine ⟨?_, ?_, ?_⟩ <;> simp only [copyStep, upd_same]
      · exact c1
      · exact c2
      · exact c3
    · refine ⟨?_, ?_, ?_⟩ <;> simp only [copyStep, upd, hkj, if_false]
      · exact p1
      · exact p2
      · exact p3
  · intro k
    exact hc k

theorem foldl_copy_le {K : Nat} (js : List Nat) {a b : Bufs} (hab : NonnegLe K a b) :
    NonnegLe K (js.foldl copyStep a) (js.foldl copyStep b) := by
  induction js generalizing a b with
  | nil => exact hab
  | cons j rest ih =>
    rw [List.foldl_cons, List.foldl_cons]
    exact ih (copyStep_le hab j)

theorem poisonStep_le {K : Nat} (bs : Nat) (p q : ℚ) {a b : Bufs} (hab : NonnegLe K a b)
    (hbs : bs - 1 ≤ K) : NonnegLe K (poisonStep bs p a) (poisonStep bs q b) := by
  obtain ⟨hp, hc⟩ := hab
  unfold poisonStep
  split
  · refine ⟨fun k hk => ?_, hc⟩
    obtain ⟨p1, p2, p3⟩ := hp k hk
    have hkne : k ≠ bs - 2 := by omega
    refine ⟨?_, ?_, ?_⟩ <;> simp only [upd, hkne, if_false]
    · exact p1
    · exact p2
    · exact p3
  · exact ⟨hp, hc⟩

theorem resetStep_le {K : Nat} (bs : Nat) {a b : Bufs} (hab : NonnegLe K a b) :
    NonnegLe K (resetStep bs a) (resetStep bs b) := by
  obtain ⟨hp, hc⟩ := hab
  refine ⟨hp, fun k => ?_⟩
  obtain ⟨x1, x2, x3⟩ := hc k
  by_cases hk : k = bs
  · subst hk
    refine ⟨?_, ?_, ?_⟩ <;> simp only [resetStep, upd_same]
    all_goals exact ⟨le_refl 0, le_refl 0⟩
  · refine ⟨?_, ?_, ?_⟩ <;> simp only [resetStep, upd, hk, if_false]
    · exact x1
    · exact x2
    · exact x3

/-- A full row: the Viterbi state stays nonnegative and dominated by the
stable forward state, for possibly different poison values. -/
theorem logRowVS_le {K : Nat} (v w : List Char) (t : LnTransitionProbs) (e : LnEmissionProbs)
    (ht : NonnegT t) (he : NonnegE e) (n m bw : Nat) (p q : ℚ) (i : Nat)
    {a b : Bufs} (hab : NonnegLe K a b)
    (hK : K + 1 ≤ bandStart (bandMiddle n m i) (bw / 2)) :
    NonnegLe (bandStart (bandMiddle n m i) (bw / 2) - 1)
      (logRow t n m bw p (viterbiCell v w t e) a i)
      (logRow t n m bw q (stableCell v w t e) b i) := by
  unfold logRow
  have h1 := blockStep_le t ht (bandStart (bandMiddle n m i) (bw / 2)) i hab hK
  have h2 := foldl_cellVS_le (viterbiCell v w t e i) (stableCell v w t e i)
    (fun aa bb j hr hjk => cellVS_le v w t e ht he i hr j hjk)
    (rowCols (bandStart (bandMiddle n m i) (bw / 2)) (bandEnd (bandMiddle n m i) (bw / 2) m))
    (fun j hj => by
      have := mem_rowCols.mp hj
      omega) h1
  have h3 := nonnegLe_mono (show K ≤ bandStart (bandMiddle n m i) (bw / 2) - 1 by omega)
    (foldl_copy_le
      (List.range' (bandStart (bandMiddle n m i) (bw / 2) - 1)
        (bandEnd (bandMiddle n m i) (bw / 2) m + 2 - bandStart (bandMiddle n m i) (bw / 2))) h2)
  have h4 := poisonStep_le (bandStart (bandMiddle n m i) (bw / 2)) p q h3 (by omega)
  exact resetStep_le _ h4

theorem logRunVS_le (v w : List Char) (t : LnTransitionProbs) (e : LnEmissionProbs)
    (ht : NonnegT t) (he : NonnegE e) (n m bw : Nat) (p q : ℚ) (b0 : Bufs)
    (h0 : NonnegLe 0 b0 b0) (r : Nat) :
    NonnegLe (bandStart (bandMiddle n m r) (bw / 2) - 1)
      ((List.range' 1 r).foldl (logRow t n m bw p (viterbiCell v w t e)) b0)
      ((List.range' 1 r).foldl (logRow t n m bw q (stableCell v w t e)) b0) := by
  induction r with
  | zero =>
    exact nonnegLe_mono (by omega) h0
  | succ r ih =>
    rw [foldl_range'_one_succ, foldl_range'_one_succ]
    have hmono : bandStart (bandMiddle n m r) (bw / 2) ≤
        bandStart (bandMiddle n m (1 + r)) (bw / 2) :=
      bandStart_mono (bandMiddle_mono (by omega))
    have hpos := bandStart_pos (bandMiddle n m r) (bw / 2)
    have hrow := logRowVS_le v w t e ht he n m bw p q (1 + r) ih (by omega)
    rw [show bandMiddle n m (r + 1) = bandMiddle n m (1 + r) from by rw [Nat.add_comm]]
    exact hrow

/-- Nonnegativity of the shared initial buffers. -/
theorem initBufs_nonnegLe (t : LnTransitionProbs) (ht : NonnegT t) (m : Nat) :
    NonnegLe 0 (initBufs t m) (initBufs t m) := by
  obtain ⟨t1, t2, t3, t4, t5, t6, t7⟩ := ht
  have hup : ∀ k, 0 ≤ upperInit t m k := by
    have key : ∀ (js : List Nat) (f : Nat → ℚ), (∀ k, 0 ≤ f k) →
        ∀ k, 0 ≤ (js.foldl (fun g j => upd g j (g (j - 1) * t.deletion_from_deletion)) f) k := by
      intro js
      induction js with
      | nil => intro f hf k; exact hf k
      | cons j rest ih =>
        intro f hf k
        rw [List.foldl_cons]
        refine ih _ (fun k' => ?_) k
        by_cases hk' : k' = j
        · subst hk'
          simp only [upd_same]
          exact mul_nonneg (hf _) t6
        · simp only [upd, hk', if_false]
          exact hf k'
    intro k
    refine key _ _ (fun k' => ?_) k
    by_cases hk' : k' = 1
    · subst hk'
      simp only [upd_same]
      exact t3
    · simp only [upd, hk', if_false]
      exact le_refl 0
  constructor
  · intro k _
    refine ⟨⟨le_refl 0, le_refl 0⟩, ?_, ⟨hup k, le_refl _⟩⟩
    by_cases hk : k = 0
    · subst hk
      simp only [initBufs, upd_same]
      exact ⟨by norm_num, le_refl 1⟩
    · simp only [initBufs, upd, hk, if_false]
      exact ⟨le_refl 0, le_refl 0⟩
  · intro k
    exact ⟨⟨le_refl 0, le_refl 0⟩, ⟨le_refl 0, le_refl 0⟩, ⟨le_refl 0, le_refl 0⟩⟩

/-- Viterbi's result is at most the stable forward result, whenever both are
defined, for any poison values and any nonnegative parameter bundle. -/
theorem viterbi_le_stable (p q : ℚ) (v w : List Char) (params : LnAlignmentParameters)
    (min_band_width : Nat) (hP : NonnegParams params) (hw : w.length ≠ 0) :
    (viterbi_max_scoring_alignment p v w params min_band_width).getD 0 ≤
      (forward_algorithm_numerically_stable q v w params min_band_width).getD 0 := by
  obtain ⟨ht, he⟩ := hP
  unfold viterbi_max_scoring_alignment forward_algorithm_numerically_stable
  rw [if_neg hw, if_neg hw]
  dsimp only
  have hrun := logRunVS_le v w params.transition_probs params.emission_probs ht he
    v.length w.length (bandWidth min_band_width v.length w.length) p q
    (initBufs params.transition_probs w.length)
    (initBufs_nonnegLe params.transition_probs ht w.length) v.length
  have hbm := bandMiddle_last (n := v.length) (m := w.length)
  have hbs := bandStart_le_max (bandMiddle v.length w.length v.length)
    (bandWidth min_band_width v.length w.length / 2)
  have hm : 0 < w.length := Nat.pos_of_ne_zero hw
  rcases Nat.eq_zero_or_pos v.length with hn | hn
  · rw [hn]
    simp only [List.range'_zero, List.foldl_nil, Option.getD_some]
    exact le_refl _
  · have hbm2 := hbm hn
    have hKm : bandStart (bandMiddle v.length w.length v.length)
        (bandWidth min_band_width v.length w.length / 2) - 1 ≤ w.length := by
      omega
    obtain ⟨_, ⟨_, hmp⟩, _⟩ := hrun.1 w.length hKm
    simpa using hmp

/-! Characterisations of the geometric initialisation folds. -/

theorem upperInit_char (t : LnTransitionProbs) (m : Nat) (hm : 1 ≤ m) (k : Nat) :
    upperInit t m k =
      if 1 ≤ k ∧ k ≤ m then t.deletion_from_match * t.deletion_from_deletion ^ (k - 1)
      else 0 := by
  have key : ∀ (c k : Nat),
      ((List.range' 2 c).foldl (fun f j => upd f j (f (j - 1) * t.deletion_from_deletion))
        (upd (fun _ => 0) 1 t.deletion_from_match)) k =
      if 1 ≤ k ∧ k ≤ c + 1 then t.deletion_from_match * t.deletion_from_deletion ^ (k - 1)
      else 0 := by
    intro c
    induction c with
    | zero =>
      intro k
      by_cases hk : k = 1
      · subst hk
        simp [upd]
      · simp only [List.range'_zero, List.foldl_nil, upd, hk, if_false]
        rw [if_neg]
        omega
    | succ c ih =>
      intro k
      rw [show List.range' 2 (c + 1) = List.range' 2 c ++ [2 + c] from List.range'_1_concat 2 c,
        List.foldl_append, List.foldl_cons, List.foldl_nil]
      by_cases hk : k = 2 + c
      · subst hk
        rw [upd_same, show 2 + c - 1 = c + 1 from by omega, ih (c + 1)]
        rw [if_pos (by omega), if_pos (by omega)]
        rw [mul_assoc, pow_succ, Nat.add_sub_cancel]
      · rw [upd_ne _ _ _ _ hk, ih k]
        by_cases h1 : 1 ≤ k ∧ k ≤ c + 1
        · rw [if_pos h1, if_pos (by omega)]
        · rw [if_neg h1, if_neg (by omega)]
  unfold upperInit
  rw [key (m - 1) k, show m - 1 + 1 = m from by omega]

theorem upperRowInit_char (t : TransitionProbs) (m : Nat) (hm : 1 ≤ m) (p k : Nat) :
    upperRowInit t m (fun _ _ => 0) p k =
      if p = 0 ∧ 1 ≤ k ∧ k ≤ m then t.deletion_from_match * t.deletion_from_deletion ^ (k - 1)
      else 0 := by
  have key : ∀ (c p k : Nat),
      ((List.range' 2 c).foldl (fun g j => updM g 0 j (g 0 (j - 1) * t.deletion_from_deletion))
        (updM (fun _ _ => 0) 0 1 t.deletion_from_match)) p k =
      if p = 0 ∧ 1 ≤ k ∧ k ≤ c + 1
      then t.deletion_from_match * t.deletion_from_deletion ^ (k - 1) else 0 := by
    intro c
    induction c with
    | zero =>
      intro p k
      by_cases hpk : p = 0 ∧ k = 1
      · obtain ⟨hp, hk⟩ := hpk
        subst hp
        subst hk
        simp [updM]
      · simp only [List.range'_zero, List.foldl_nil, updM]
        rw [if_neg (by omega), if_neg (by omega)]
    | succ c ih =>
      intro p k
      rw [show List.range' 2 (c + 1) = List.range' 2 c ++ [2 + c] from List.range'_1_concat 2 c,
        List.foldl_append, List.foldl_cons, List.foldl_nil]
      by_cases hpk : p = 0 ∧ k = 2 + c
      · obtain ⟨hp, hk⟩ := hpk
        subst hp
        subst hk
        rw [show updM _ 0 (2 + c) _ 0 (2 + c) = _ from if_pos ⟨rfl, rfl⟩]
        rw [show 2 + c - 1 = c + 1 from by omega, ih 0 (c + 1)]
        rw [if_pos (by omega), if_pos (by omega)]
        rw [mul_assoc, pow_succ, Nat.add_sub_cancel]
      · rw [updM_ne _ _ _ _ _ _ (by omega), ih p k]
        by_cases h1 : p = 0 ∧ 1 ≤ k ∧ k ≤ c + 1
        · rw [if_pos h1, if_pos (by omega)]
        · rw [if_neg h1, if_neg (by omega)]
  unfold upperRowInit
  rw [key (m - 1) p k, show m - 1 + 1 = m from by omega]

theorem lowerColInit_char (t : TransitionProbs) (n : Nat) (hn : 1 ≤ n) (p k : Nat) :
    lowerColInit t n (fun _ _ => 0) p k =
      if k = 0 ∧ 1 ≤ p ∧ p ≤ n
      then t.insertion_from_match * t.insertion_from_insertion ^ (p - 1) else 0 := by
  have key : ∀ (c p k : Nat),
      ((List.range' 2 c).foldl (fun g i => updM g i 0 (g (i - 1) 0 * t.insertion_from_insertion))
        (updM (fun _ _ => 0) 1 0 t.insertion_from_match)) p k =
      if k = 0 ∧ 1 ≤ p ∧ p ≤ c + 1
      then t.insertion_from_match * t.insertion_from_insertion ^ (p - 1) else 0 := by
    intro c
    induction c with
    | zero =>
      intro p k
      by_cases hpk : p = 1 ∧ k = 0
      · obtain ⟨hp, hk⟩ := hpk
        subst hp
        subst hk
        simp [updM]
      · simp only [List.range'_zero, List.foldl_nil, updM]
        rw [if_neg (by omega), if_neg (by omega)]
    | succ c ih =>
      intro p k
      rw [show List.range' 2 (c + 1) = List.range' 2 c ++ [2 + c] from List.range'_1_concat 2 c,
        List.foldl_append, List.foldl_cons, List.foldl_nil]
      by_cases hpk : p = 2 + c ∧ k = 0
      · obtain ⟨hp, hk⟩ := hpk
        subst hp
        subst hk
        rw [show updM _ (2 + c) 0 _ (2 + c) 0 = _ from if_pos ⟨rfl, rfl⟩]
        rw [show 2 + c - 1 = c + 1 from by omega, ih (c + 1) 0]
        rw [if_pos (by omega), if_pos (by omega)]
        rw [mul_assoc, pow_succ, Nat.add_sub_cancel]
      · rw [updM_ne _ _ _ _ _ _ (by omega), ih p k]
        by_cases h1 : k = 0 ∧ 1 ≤ p ∧ p ≤ c + 1
        · rw [if_pos h1, if_pos (by omega)]
        · rw [if_neg h1, if_neg (by omega)]
  unfold lowerColInit
  rw [key (n - 1) p k, show n - 1 + 1 = n from by omega]

/-! Frame lemmas for the non-stable engine's matrix fold. -/

theorem nonStableCell_frame (v w : List Char) (P : AlignmentParameters) (i : Nat)
    (M : Mats) (j p q : Nat) (h : ¬(p = i ∧ q = j)) :
    (nonStableCell v w P i M j).fl p q = M.fl p q ∧
      (nonStableCell v w P i M j).fm p q = M.fm p q ∧
      (nonStableCell v w P i M j).fu p q = M.fu p q := by
  unfold nonStableCell
  dsimp only
  split
  · split
    · exact ⟨rfl, rfl, rfl⟩
    · exact ⟨rfl, by simp only [updM, h, if_false], rfl⟩
  · refine ⟨?_, ?_, ?_⟩ <;> simp only [updM, h, if_false]

theorem foldl_nonStableCell_frame (v w : List Char) (P : AlignmentParameters) (i : Nat)
    (js : List Nat) (M : Mats) (p q : Nat) (h : p ≠ i ∨ q ∉ js) :
    (js.foldl (nonStableCell v w P i) M).fl p q = M.fl p q ∧
      (js.foldl (nonStableCell v w P i) M).fm p q = M.fm p q ∧
      (js.foldl (nonStableCell v w P i) M).fu p q = M.fu p q := by
  induction js generalizing M with
  | nil => exact ⟨rfl, rfl, rfl⟩
  | cons j rest ih =>
    rw [List.foldl_cons]
    have hnotin : p ≠ i ∨ q ∉ rest := by
      rcases h with h | h
      · exact Or.inl h
      · exact Or.inr (fun hq => h (List.mem_cons_of_mem j hq))
    have hne : ¬(p = i ∧ q = j) := by
      rcases h with h | h
      · exact fun hc => h hc.1
      · exact fun hc => h (hc.2 ▸ List.mem_cons_self j rest)
    obtain ⟨f1, f2, f3⟩ := nonStableCell_frame v w P i M j p q hne
    obtain ⟨g1, g2, g3⟩ := ih (nonStableCell v w P i M j) hnotin
    exact ⟨by rw [g1, f1], by rw [g2, f2], by rw [g3, f3]⟩

theorem nonStableRow_frame (v w : List Char) (P : AlignmentParameters) (bw : Nat)
    (M : Mats) (i p q : Nat) (h : p ≠ i ∨ q = 0) :
    (nonStableRow v w P bw M i).fl p q = M.fl p q ∧
      (nonStableRow v w P bw M i).fm p q = M.fm p q ∧
      (nonStableRow v w P bw M i).fu p q = M.fu p q := by
  unfold nonStableRow
  refine foldl_nonStableCell_frame v w P i _ M p q ?_
  rcases h with h | h
  · exact Or.inl h
  · refine Or.inr (fun hq => ?_)
    have := mem_rowCols.mp hq
    have := bandStart_pos (bandMiddle v.length w.length i) (bw / 2)
    omega

/-- Row 0 and column 0 of the matrices are never touched by the banded rows. -/
theorem nonStableRun_border (v w : List Char) (P : AlignmentParameters) (bw : Nat)
    (r : Nat) (M0 : Mats) (p q : Nat) (h : p = 0 ∨ q = 0) :
    ((List.range' 1 r).foldl (nonStableRow v w P bw) M0).fl p q = M0.fl p q ∧
      ((List.range' 1 r).foldl (nonStableRow v w P bw) M0).fm p q = M0.fm p q ∧
      ((List.range' 1 r).foldl (nonStableRow v w P bw) M0).fu p q = M0.fu p q := by
  induction r with
  | zero => exact ⟨rfl, rfl, rfl⟩
  | succ r ih =>
    rw [foldl_range'_one_succ]
    have hcase : p ≠ 1 + r ∨ q = 0 := by
      rcases h with h | h
      · exact Or.inl (by omega)
      · exact Or.inr h
    obtain ⟨f1, f2, f3⟩ := nonStableRow_frame v w P bw _ (1 + r) p q hcase
    obtain ⟨g1, g2, g3⟩ := ih
    exact ⟨by rw [f1, g1], by rw [f2, g2], by rw [f3, g3]⟩

/-! Value-preservation of the linear-to-log conversions in the probability
representation. -/

@[simp] theorem ln_mm (t : TransitionProbs) : t.ln.match_from_match = t.match_from_match := rfl

@[simp] theorem ln_ifm (t : TransitionProbs) :
    t.ln.insertion_from_match = t.insertion_from_match := rfl

@[simp] theorem ln_dfm (t : TransitionProbs) :
    t.ln.deletion_from_match = t.deletion_from_match := rfl

@[simp] theorem ln_ii (t : TransitionProbs) :
    t.ln.insertion_from_insertion = t.insertion_from_insertion := rfl

@[simp] theorem ln_mfi (t : TransitionProbs) :
    t.ln.match_from_insertion = t.match_from_insertion := rfl

@[simp] theorem ln_dd (t : TransitionProbs) :
    t.ln.deletion_from_deletion = t.deletion_from_deletion := rfl

@[simp] theorem ln_mfd (t : TransitionProbs) :
    t.ln.match_from_deletion = t.match_from_deletion := rfl

@[simp] theorem ln_eq (e : EmissionProbs) : e.ln.equal = e.equal := rfl

@[simp] theorem ln_neq (e : EmissionProbs) : e.ln.not_equal = e.not_equal := rfl

@[simp] theorem ln_ins (e : EmissionProbs) : e.ln.insertion = e.insertion := rfl

@[simp] theorem ln_del (e : EmissionProbs) : e.ln.deletion = e.deletion := rfl

@[simp] theorem ln_tp (P : AlignmentParameters) :
    P.ln.transition_probs = P.transition_probs.ln := rfl

@[simp] theorem ln_ep (P : AlignmentParameters) :
    P.ln.emission_probs = P.emission_probs.ln := rfl

/-! Full-coverage band facts. -/

theorem bandStart_eq_one {bm h : Nat} (hb : bm ≤ h) : bandStart bm h = 1 := by
  unfold bandStart
  split <;> omega

theorem bandEnd_eq_m {bm h m : Nat} (hm : m ≤ h) : bandEnd bm h m = m := by
  unfold bandEnd
  split <;> omega

/-! Characterisation of the copy-back loop. -/

theorem foldl_copy_char (js : List Nat) (b : Bufs) :
    (∀ k, ((js.foldl copyStep b).lp k = if k ∈ js then b.lc k else b.lp k) ∧
      ((js.foldl copyStep b).mp k = if k ∈ js then b.mc k else b.mp k) ∧
      ((js.foldl copyStep b).up k = if k ∈ js then b.uc k else b.up k)) ∧
      (js.foldl copyStep b).lc = b.lc ∧ (js.foldl copyStep b).mc = b.mc ∧
      (js.foldl copyStep b).uc = b.uc := by
  induction js generalizing b with
  | nil =>
    refine ⟨fun k => ?_, rfl, rfl, rfl⟩
    simp
  | cons j rest ih =>
    rw [List.foldl_cons]
    obtain ⟨ihk, ihc1, ihc2, ihc3⟩ := ih (copyStep b j)
    refine ⟨fun k => ?_, by rw [ihc1]; rfl, by rw [ihc2]; rfl, by rw [ihc3]; rfl⟩
    obtain ⟨k1, k2, k3⟩ := ihk k
    have hc1 : (copyStep b j).lc = b.lc := rfl
    have hc2 : (copyStep b j).mc = b.mc := rfl
    have hc3 : (copyStep b j).uc = b.uc := rfl
    by_cases hmem : k ∈ rest
    · rw [k1, k2, k3, if_pos hmem, if_pos hmem, if_pos hmem, hc1, hc2, hc3]
      have : k ∈ j :: rest := List.mem_cons_of_mem j hmem
      rw [if_pos this, if_pos this, if_pos this]
      exact ⟨rfl, rfl, rfl⟩
    · rw [k1, k2, k3, if_neg hmem, if_neg hmem, if_neg hmem]
      by_cases hkj : k = j
      · subst hkj
        have hmem2 : k ∈ k :: rest := List.mem_cons_self k rest
        rw [if_pos hmem2, if_pos hmem2, if_pos hmem2]
        refine ⟨?_, ?_, ?_⟩ <;> simp [copyStep, upd]
      · have hmem2 : k ∉ j :: rest := by
          intro hx
          rcases List.mem_cons.mp hx with hx | hx
          · exact hkj hx
          · exact hmem hx
        rw [if_neg hmem2, if_neg hmem2, if_neg hmem2]
        refine ⟨?_, ?_, ?_⟩ <;> simp [copyStep, upd, hkj]

/-! Parallel fold abbreviations for the full-band equivalence proof. -/

def sFold (v w : List Char) (P : AlignmentParameters) (i c : Nat) (b : Bufs) : Bufs :=
  (List.range' 1 c).foldl (stableCell v w P.transition_probs.ln P.emission_probs.ln i) b

def mFold (v w : List Char) (P : AlignmentParameters) (i c : Nat) (M : Mats) : Mats :=
  (List.range' 1 c).foldl (nonStableCell v w P i) M

theorem sFold_succ (v w : List Char) (P : AlignmentParameters) (i c : Nat) (b : Bufs) :
    sFold v w P i (c + 1) b =
      stableCell v w P.transition_probs.ln P.emission_probs.ln i (sFold v w P i c b) (1 + c) := by
  unfold sFold
  exact foldl_range'_one_succ _ b c

theorem mFold_succ (v w : List Char) (P : AlignmentParameters) (i c : Nat) (M : Mats) :
    mFold v w P i (c + 1) M = nonStableCell v w P i (mFold v w P i c M) (1 + c) := by
  unfold mFold
  exact foldl_range'_one_succ _ M c

theorem sFold_prev (v w : List Char) (P : AlignmentParameters) (i c : Nat) (b : Bufs) :
    (sFold v w P i c b).lp = b.lp ∧ (sFold v w P i c b).mp = b.mp ∧
      (sFold v w P i c b).up = b.up := by
  induction c with
  | zero => exact ⟨rfl, rfl, rfl⟩
  | succ c ih =>
    rw [sFold_succ]
    exact ih

/-- The standard (non-homopolymer) branch of a non-stable cell, selected
whenever the first-occurrence vectors are trivial at the two positions. -/
theorem nonStableCell_standard (v w : List Char) (P : AlignmentParameters) (i : Nat)
    (M : Mats) (j : Nat) (hfv : firstOccAt v (i - 1) = i - 1)
    (hfw : firstOccAt w (j - 1) = j - 1) :
    (nonStableCell v w P i M j).fl i j =
      P.emission_probs.insertion *
        (M.fl (i - 1) j * P.transition_probs.insertion_from_insertion +
          M.fm (i - 1) j * P.transition_probs.insertion_from_match) ∧
    (nonStableCell v w P i M j).fu i j =
      P.emission_probs.deletion *
        (M.fu i (j - 1) * P.transition_probs.deletion_from_deletion +
          M.fm i (j - 1) * P.transition_probs.deletion_from_match) ∧
    (nonStableCell v w P i M j).fm i j =
      (if v.getD (i - 1) 'N' = w.getD (j - 1) 'N' then P.emission_probs.equal
        else P.emission_probs.not_equal) *
        (M.fl (i - 1) (j - 1) * P.transition_probs.match_from_insertion +
          M.fm (i - 1) (j - 1) * P.transition_probs.match_from_match +
          M.fu (i - 1) (j - 1) * P.transition_probs.match_from_deletion) := by
  unfold nonStableCell
  dsimp only
  rw [if_neg (fun hcon => hcon.2.elim (fun hh => hh hfv) (fun hh => hh hfw))]
  refine ⟨?_, ?_, ?_⟩ <;> simp [updM]

/-- Parallel column induction: with trivial first-occurrence vectors (no
runs) the stable engine's current row tracks the non-stable engine's row
`i`, cell by cell. -/
theorem innerVS_fullband (v w : List Char) (P : AlignmentParameters) (i : Nat)
    (hi1 : 1 ≤ i) (hi2 : i ≤ v.length)
    (hnrv : ∀ k, k < v.length → firstOccAt v k = k)
    (hnrw : ∀ k, k < w.length → firstOccAt w k = k)
    (b : Bufs) (M : Mats)
    (hprev : ∀ k, k ≤ w.length →
      b.lp k = M.fl (i - 1) k ∧ b.mp k = M.fm (i - 1) k ∧ b.up k = M.fu (i - 1) k)
    (hcur0 : b.lc 0 = M.fl i 0 ∧ b.mc 0 = M.fm i 0 ∧ b.uc 0 = M.fu i 0)
    (c : Nat) (hc : c ≤ w.length) :
    (∀ k, k ≤ c → (sFold v w P i c b).lc k = (mFold v w P i c M).fl i k ∧
      (sFold v w P i c b).mc k = (mFold v w P i c M).fm i k ∧
      (sFold v w P i c b).uc k = (mFold v w P i c M).fu i k) ∧
    ∀ pp q, ¬(pp = i ∧ 1 ≤ q ∧ q ≤ c) →
      (mFold v w P i c M).fl pp q = M.fl pp q ∧ (mFold v w P i c M).fm pp q = M.fm pp q ∧
        (mFold v w P i c M).fu pp q = M.fu pp q := by
  induction c with
  | zero =>
    constructor
    · intro k hk
      have hk0 : k = 0 := by omega
      subst hk0
      exact hcur0
    · intro pp q _
      exact ⟨rfl, rfl, rfl⟩
  | succ c ih =>
    have hc' : c ≤ w.length := by omega
    obtain ⟨H1, H3⟩ := ih hc'
    obtain ⟨S1, S2, S3⟩ := sFold_prev v w P i c b
    have hfv : firstOccAt v (i - 1) = i - 1 := hnrv (i - 1) (by omega)
    have hfw : firstOccAt w (1 + c - 1) = 1 + c - 1 := hnrw (1 + c - 1) (by omega)
    obtain ⟨NL, NU, NM⟩ := nonStableCell_standard v w P i (mFold v w P i c M) (1 + c) hfv hfw
    have hii : ¬(i - 1 = i) := by omega
    -- previous-row reads of the evolving matrix are still the row-start values
    obtain ⟨F1, F2, F3⟩ := H3 (i - 1) (1 + c) (fun hcon => hii hcon.1)
    obtain ⟨G1, G2, G3⟩ := H3 (i - 1) c (fun hcon => hii hcon.1)
    obtain ⟨P1, P2, P3⟩ := hprev (1 + c) (by omega)
    obtain ⟨Q1, Q2, Q3⟩ := hprev c (by omega)
    have hcc : 1 + c - 1 = c := by omega
    constructor
    · intro k hk
      by_cases hkc : k = 1 + c
      · subst hkc
        rw [sFold_succ, mFold_succ]
        refine ⟨?_, ?_, ?_⟩
        · rw [stableCell_lc, NL, S1, S2, P1, P2, F1, F2]
          simp
        · rw [stableCell_mc, NM, S1, S2, S3, hcc, Q1, Q2, Q3, G1, G2, G3]
          simp
        · rw [stableCell_uc, NU, hcc]
          obtain ⟨C1, C2, C3⟩ := H1 c (le_refl c)
          rw [C2, C3]
          simp
      · have hkc' : k ≤ c := by omega
        obtain ⟨C1, C2, C3⟩ := H1 k hkc'
        rw [sFold_succ, mFold_succ]
        obtain ⟨X1, X2, X3⟩ := stableCell_curr_ne v w P.transition_probs.ln
          P.emission_probs.ln i (sFold v w P i c b) (1 + c) k hkc
        obtain ⟨Y1, Y2, Y3⟩ := nonStableCell_frame v w P i (mFold v w P i c M) (1 + c) i k
          (fun hcon => hkc hcon.2)
        exact ⟨by rw [X1, Y1, C1], by rw [X2, Y2, C2], by rw [X3, Y3, C3]⟩
    · intro pp q hpq
      rw [mFold_succ]
      have hpq1 : ¬(pp = i ∧ 1 ≤ q ∧ q ≤ c) := by
        intro hcon
        exact hpq ⟨hcon.1, hcon.2.1, by omega⟩
      have hpq2 : ¬(pp = i ∧ q = 1 + c) := by
        intro hcon
        exact hpq ⟨hcon.1, by omega, by omega⟩
      obtain ⟨Z1, Z2, Z3⟩ := nonStableCell_frame v w P i (mFold v w P i c M) (1 + c) pp q hpq2
      obtain ⟨W1, W2, W3⟩ := H3 pp q hpq1
      exact ⟨by rw [Z1, W1], by rw [Z2, W2], by rw [Z3, W3]⟩

theorem poisonStep_one (p : ℚ) (b : Bufs) : poisonStep 1 p b = b := by
  unfold poisonStep
  rw [if_neg (by omega)]

theorem rowCols_one (m : Nat) : rowCols 1 m = List.range' 1 m := by
  unfold rowCols
  norm_num

/-- With a band that covers every column, each row of a log-domain engine
reduces to block, full cell loop, full copy loop and the reset; there is no
poisoning. -/
theorem logRow_fullband (t' : LnTransitionProbs) (n m bw : Nat) (p : ℚ)
    (cell : Nat → Bufs → Nat → Bufs) (b : Bufs) (i : Nat)
    (hbm : bandMiddle n m i ≤ m) (hfb : m ≤ bw / 2) :
    logRow t' n m bw p cell b i =
      resetStep 1 ((List.range' 0 (m + 1)).foldl copyStep
        ((List.range' 1 m).foldl (cell i) (blockStep t' 1 i b))) := by
  unfold logRow
  dsimp only
  rw [bandStart_eq_one (le_trans hbm hfb), bandEnd_eq_m hfb, poisonStep_one, rowCols_one]
  norm_num

/-- One full-band row: the stable engine's buffers after the row agree with
row `i` of the non-stable matrices after the same row. -/
theorem rowVS_fullband (v w : List Char) (P : AlignmentParameters) (bw : Nat) (p : ℚ)
    (hnrv : ∀ k, k < v.length → firstOccAt v k = k)
    (hnrw : ∀ k, k < w.length → firstOccAt w k = k)
    (i : Nat) (hi1 : 1 ≤ i) (hi2 : i ≤ v.length) (hn : 1 ≤ v.length) (hm : 1 ≤ w.length)
    (hfb : w.length ≤ bw / 2) (b : Bufs) (M : Mats)
    (hprev : ∀ k, k ≤ w.length →
      b.lp k = M.fl (i - 1) k ∧ b.mp k = M.fm (i - 1) k ∧ b.up k = M.fu (i - 1) k)
    (huc0 : b.uc 0 = 0)
    (hcol : ∀ pp, M.fl pp 0 =
        (if 1 ≤ pp ∧ pp ≤ v.length then
          P.transition_probs.insertion_from_match *
            P.transition_probs.insertion_from_insertion ^ (pp - 1) else 0) ∧
      M.fm pp 0 = (if pp = 0 then 1 else 0) ∧ M.fu pp 0 = 0) :
    (∀ k, k ≤ w.length →
      (logRow P.transition_probs.ln v.length w.length bw p
        (stableCell v w P.transition_probs.ln P.emission_probs.ln) b i).lp k =
          (nonStableRow v w P bw M i).fl i k ∧
      (logRow P.transition_probs.ln v.length w.length bw p
        (stableCell v w P.transition_probs.ln P.emission_probs.ln) b i).mp k =
          (nonStableRow v w P bw M i).fm i k ∧
      (logRow P.transition_probs.ln v.length w.length bw p
        (stableCell v w P.transition_probs.ln P.emission_probs.ln) b i).up k =
          (nonStableRow v w P bw M i).fu i k) ∧
    (logRow P.transition_probs.ln v.length w.length bw p
      (stableCell v w P.transition_probs.ln P.emission_probs.ln) b i).uc 0 = 0 := by
  have hbm : bandMiddle v.length w.length i ≤ w.length := bandMiddle_le hn hi2
  rw [logRow_fullband _ _ _ _ _ _ _ _ hbm hfb]
  have hrow : nonStableRow v w P bw M i = mFold v w P i w.length M := by
    unfold nonStableRow mFold
    dsimp only
    rw [bandStart_eq_one (le_trans hbm hfb), bandEnd_eq_m hfb, rowCols_one]
  rw [hrow]
  set b1 := blockStep P.transition_probs.ln 1 i b with hb1
  have hb1prev : b1.lp = b.lp ∧ b1.mp = b.mp ∧ b1.up = b.up := by
    refine ⟨?_, ?_, ?_⟩ <;> simp [hb1, blockStep]
  have hb1c : b1.lc 0 = M.fl i 0 ∧ b1.mc 0 = M.fm i 0 ∧ b1.uc 0 = M.fu i 0 := by
    obtain ⟨cl, cm, cu⟩ := hcol i
    obtain ⟨cl', _, _⟩ := hcol (i - 1)
    have v1 : b1.lc 0 = (if i = 1 then P.transition_probs.insertion_from_match
        else b.lp 0 * P.transition_probs.insertion_from_insertion) := by
      simp [hb1, blockStep, upd]
    have v2 : b1.mc 0 = 0 := by
      simp [hb1, blockStep, upd]
    have v3 : b1.uc 0 = b.uc 0 := by
      simp [hb1, blockStep]
    refine ⟨?_, ?_, ?_⟩
    · rw [v1]
      by_cases hone : i = 1
      · rw [if_pos hone, cl, if_pos ⟨hi1, hi2⟩, hone]
        norm_num
      · rw [if_neg hone, cl, if_pos ⟨hi1, hi2⟩]
        obtain ⟨p0, _, _⟩ := hprev 0 (by omega)
        rw [p0, cl', if_pos (by omega)]
        rw [mul_assoc, ← pow_succ]
        rw [show i - 1 - 1 + 1 = i - 1 from by omega]
    · rw [v2, cm, if_neg (by omega)]
    · rw [v3, huc0, cu]
  obtain ⟨IH1, IH3⟩ := innerVS_fullband v w P i hi1 hi2 hnrv hnrw b1 M
    (fun k hk => by
      obtain ⟨q1, q2, q3⟩ := hprev k hk
      rw [hb1prev.1, hb1prev.2.1, hb1prev.2.2]
      exact ⟨q1, q2, q3⟩) hb1c w.length (le_refl _)
  obtain ⟨CC, CL, CM, CU⟩ := foldl_copy_char (List.range' 0 (w.length + 1))
    (sFold v w P i w.length b1)
  have hmemc : ∀ k, k ≤ w.length → k ∈ List.range' 0 (w.length + 1) := by
    intro k hk
    rw [List.mem_range'_1]
    omega
  constructor
  · intro k hk
    obtain ⟨c1, c2, c3⟩ := CC k
    obtain ⟨h1, h2, h3⟩ := IH1 k hk
    have hmem := hmemc k hk
    refine ⟨?_, ?_, ?_⟩
    · show ((List.range' 0 (w.length + 1)).foldl copyStep (sFold v w P i w.length b1)).lp k = _
      rw [c1, if_pos hmem, h1]
    · show ((List.range' 0 (w.length + 1)).foldl copyStep (sFold v w P i w.length b1)).mp k = _
      rw [c2, if_pos hmem, h2]
    · show ((List.range' 0 (w.length + 1)).foldl copyStep (sFold v w P i w.length b1)).up k = _
      rw [c3, if_pos hmem, h3]
  · show upd ((List.range' 0 (w.length + 1)).foldl copyStep (sFold v w P i w.length b1)).uc 1 0 0 = 0
    rw [upd_ne _ _ _ _ (by omega), CU]
    obtain ⟨_, _, h3⟩ := IH1 0 (by omega)
    rw [h3]
    obtain ⟨_, _, f3⟩ := IH3 i 0 (by omega)
    rw [f3]
    exact (hcol i).2.2

/-- The stable engine's state after `r` rows (probability representation). -/
def stRun (v w : List Char) (P : AlignmentParameters) (bw : Nat) (p : ℚ) (r : Nat) : Bufs :=
  (List.range' 1 r).foldl
    (logRow P.transition_probs.ln v.length w.length bw p
      (stableCell v w P.transition_probs.ln P.emission_probs.ln))
    (initBufs P.transition_probs.ln w.length)

/-- The non-stable engine's matrices after `r` rows. -/
def mRun (v w : List Char) (P : AlignmentParameters) (bw : Nat) (r : Nat) : Mats :=
  (List.range' 1 r).foldl (nonStableRow v w P bw)
    (nonStableInit P.transition_probs v.length w.length)

theorem stRun_succ (v w : List Char) (P : AlignmentParameters) (bw : Nat) (p : ℚ) (r : Nat) :
    stRun v w P bw p (r + 1) =
      logRow P.transition_probs.ln v.length w.length bw p
        (stableCell v w P.transition_probs.ln P.emission_probs.ln)
        (stRun v w P bw p r) (1 + r) := by
  unfold stRun
  exact foldl_range'_one_succ _ _ r

theorem mRun_succ (v w : List Char) (P : AlignmentParameters) (bw : Nat) (r : Nat) :
    mRun v w P bw (r + 1) = nonStableRow v w P bw (mRun v w P bw r) (1 + r) := by
  unfold mRun
  exact foldl_range'_one_succ _ _ r

theorem nonStableInit_col0 (t : TransitionProbs) (n m : Nat) (hn : 1 ≤ n) (hm : 1 ≤ m)
    (pp : Nat) :
    (nonStableInit t n m).fl pp 0 =
        (if 1 ≤ pp ∧ pp ≤ n then t.insertion_from_match * t.insertion_from_insertion ^ (pp - 1)
          else 0) ∧
      (nonStableInit t n m).fm pp 0 = (if pp = 0 then 1 else 0) ∧
      (nonStableInit t n m).fu pp 0 = 0 := by
  refine ⟨?_, ?_, ?_⟩
  · show lowerColInit t n (fun _ _ => 0) pp 0 = _
    rw [lowerColInit_char t n hn pp 0]
    simp
  · show updM (fun _ _ => 0) 0 0 1 pp 0 = _
    unfold updM
    by_cases hp : pp = 0
    · rw [if_pos ⟨hp, rfl⟩, if_pos hp]
    · rw [if_neg (fun hcon => hp hcon.1), if_neg hp]
  · show upperRowInit t m (fun _ _ => 0) pp 0 = 0
    rw [upperRowInit_char t m hm pp 0]
    rw [if_neg (by omega)]

/-- Full-band run invariant: after `r` rows the stable previous-row buffers
equal row `r` of the non-stable matrices. -/
theorem runVS_fullband (v w : List Char) (P : AlignmentParameters) (bw : Nat) (p : ℚ)
    (hnrv : ∀ k, k < v.length → firstOccAt v k = k)
    (hnrw : ∀ k, k < w.length → firstOccAt w k = k)
    (hn : 1 ≤ v.length) (hm : 1 ≤ w.length) (hfb : w.length ≤ bw / 2)
    (r : Nat) (hr : r ≤ v.length) :
    (∀ k, k ≤ w.length →
      (stRun v w P bw p r).lp k = (mRun v w P bw r).fl r k ∧
      (stRun v w P bw p r).mp k = (mRun v w P bw r).fm r k ∧
      (stRun v w P bw p r).up k = (mRun v w P bw r).fu r k) ∧
    (stRun v w P bw p r).uc 0 = 0 := by
  induction r with
  | zero =>
    constructor
    · intro k hk
      refine ⟨?_, ?_, ?_⟩
      · show (0 : ℚ) = lowerColInit P.transition_probs v.length (fun _ _ => 0) 0 k
        rw [lowerColInit_char P.transition_probs v.length hn 0 k]
        rw [if_neg (by omega)]
      · show upd (fun _ => 0) 0 1 k = updM (fun _ _ => 0) 0 0 1 0 k
        unfold upd updM
        by_cases hk0 : k = 0
        · rw [if_pos hk0, if_pos ⟨rfl, hk0⟩]
        · rw [if_neg hk0, if_neg (fun hcon => hk0 hcon.2)]
      · show upperInit P.transition_probs.ln w.length k =
          upperRowInit P.transition_probs w.length (fun _ _ => 0) 0 k
        rw [upperInit_char P.transition_probs.ln w.length hm k,
          upperRowInit_char P.transition_probs w.length hm 0 k]
        simp
    · exact rfl
  | succ r ih =>
    obtain ⟨ihp, ihc⟩ := ih (by omega)
    have hcol : ∀ pp, (mRun v w P bw r).fl pp 0 =
        (if 1 ≤ pp ∧ pp ≤ v.length then
          P.transition_probs.insertion_from_match *
            P.transition_probs.insertion_from_insertion ^ (pp - 1) else 0) ∧
        (mRun v w P bw r).fm pp 0 = (if pp = 0 then 1 else 0) ∧
        (mRun v w P bw r).fu pp 0 = 0 := by
      intro pp
      obtain ⟨B1, B2, B3⟩ := nonStableRun_border v w P bw r
        (nonStableInit P.transition_probs v.length w.length) pp 0 (Or.inr rfl)
      obtain ⟨I1, I2, I3⟩ := nonStableInit_col0 P.transition_probs v.length w.length hn hm pp
      exact ⟨by rw [show (mRun v w P bw r).fl pp 0 = _ from B1, I1],
        by rw [show (mRun v w P bw r).fm pp 0 = _ from B2, I2],
        by rw [show (mRun v w P bw r).fu pp 0 = _ from B3, I3]⟩
    have hprev : ∀ k, k ≤ w.length →
        (stRun v w P bw p r).lp k = (mRun v w P bw r).fl (1 + r - 1) k ∧
        (stRun v w P bw p r).mp k = (mRun v w P bw r).fm (1 + r - 1) k ∧
        (stRun v w P bw p r).up k = (mRun v w P bw r).fu (1 + r - 1) k := by
      intro k hk
      rw [show 1 + r - 1 = r from by omega]
      exact ihp k hk
    obtain ⟨R1, R2⟩ := rowVS_fullband v w P bw p hnrv hnrw (1 + r) (by omega) (by omega)
      hn hm hfb (stRun v w P bw p r) (mRun v w P bw r) hprev ihc hcol
    rw [stRun_succ, mRun_succ]
    constructor
    · intro k hk
      obtain ⟨x1, x2, x3⟩ := R1 k hk
      rw [show r + 1 = 1 + r from by omega]
      exact ⟨x1, x2, x3⟩
    · exact R2

/-- Full-band, homopolymer-free equivalence of the two forward engines, in
the probability representation (the non-stable result exponentiated equals
the stable result). -/
theorem nonstable_eq_stable_fullband (p : ℚ) (v w : List Char) (P : AlignmentParameters)
    (min_band_width : Nat) (hv : v.length ≠ 0) (hw : w.length ≠ 0)
    (hfb : w.length ≤ bandWidth min_band_width v.length w.length / 2)
    (hnrv : ∀ k, k < v.length → firstOccAt v k = k)
    (hnrw : ∀ k, k < w.length → firstOccAt w k = k) :
    forward_algorithm_non_numerically_stable v w P min_band_width =
      forward_algorithm_numerically_stable p v w P.ln min_band_width := by
  unfold forward_algorithm_non_numerically_stable forward_algorithm_numerically_stable
  rw [if_neg hw, if_neg hw, if_neg hv]
  dsimp only
  obtain ⟨H, _⟩ := runVS_fullband v w P (bandWidth min_band_width v.length w.length) p
    hnrv hnrw (Nat.pos_of_ne_zero hv) (Nat.pos_of_ne_zero hw) hfb v.length (le_refl _)
  obtain ⟨_, h2, _⟩ := H w.length (le_refl _)
  show some ((mRun v w P (bandWidth min_band_width v.length w.length) v.length).fm
      v.length w.length) =
    some ((stRun v w P (bandWidth min_band_width v.length w.length) p v.length).mp w.length)
  rw [h2]

/-! Run-index machinery: the specification-level run start function and the
characterisation of both occurrence-vector folds. -/

/-- First index of the maximal run of equal consecutive symbols containing
position `k` (the mathematical description of `first_occ`). -/
def runStart (seq : List Char) : Nat → Nat
  | 0 => 0
  | k + 1 => if seq.getD (k + 1) 'A' = seq.getD k 'A' then runStart seq k else k + 1

theorem runStart_le (seq : List Char) (k : Nat) : runStart seq k ≤ k := by
  induction k with
  | zero => exact le_refl 0
  | succ k ih =>
    unfold runStart
    split
    · omega
    · omega

theorem runStart_run (seq : List Char) (k : Nat) :
    ∀ t, runStart seq k ≤ t → t ≤ k → seq.getD t 'A' = seq.getD k 'A' := by
  induction k with
  | zero =>
    intro t h1 h2
    have : t = 0 := by omega
    rw [this]
  | succ k ih =>
    intro t h1 h2
    unfold runStart at h1
    by_cases hcond : seq.getD (k + 1) 'A' = seq.getD k 'A'
    · rw [if_pos hcond] at h1
      by_cases ht : t = k + 1
      · rw [ht]
      · rw [ih t h1 (by omega), hcond]
    · rw [if_neg hcond] at h1
      have : t = k + 1 := by omega
      rw [this]

theorem runStart_boundary (seq : List Char) (k : Nat) :
    runStart seq k = 0 ∨
      seq.getD (runStart seq k - 1) 'A' ≠ seq.getD (runStart seq k) 'A' := by
  induction k with
  | zero => exact Or.inl rfl
  | succ k ih =>
    unfold runStart
    by_cases hcond : seq.getD (k + 1) 'A' = seq.getD k 'A'
    · rw [if_pos hcond]
      exact ih
    · rw [if_neg hcond]
      refine Or.inr ?_
      rw [show k + 1 - 1 = k from by omega]
      exact fun h => hcond h.symm

theorem getD_eq_getElem {α : Type} (l : List α) (n : Nat) (d : α) (h : n < l.length) :
    l.getD n d = l[n] := by
  rw [List.getD_eq_getElem?_getD, List.getElem?_eq_getElem h]
  rfl

/-- The `first_occ_vector` fold computes `runStart` at every position. -/
theorem firstOccAux_eq (seq : List Char) :
    ∀ d i, i ≤ seq.length → seq.length - i = d →
      firstOccAux (if i = 0 then 'N' else seq.getD (i - 1) 'A')
        (if i = 0 then 0 else runStart seq (i - 1)) i (seq.drop i) =
      (List.range' i d).map (runStart seq) := by
  intro d
  induction d with
  | zero =>
    intro i hi hd
    rw [List.drop_eq_nil_of_le (by omega)]
    rfl
  | succ d ih =>
    intro i hi hd
    have hlt : i < seq.length := by omega
    rw [List.drop_eq_getElem_cons hlt]
    have hc : seq[i] = seq.getD i 'A' := (getD_eq_getElem seq i 'A' hlt).symm
    have hrec := ih (i + 1) (by omega) (by omega)
    rw [show List.range' i (d + 1) = i :: List.range' (i + 1) d from List.range'_succ i d 1]
    rw [List.map_cons]
    by_cases hi0 : i = 0
    · subst hi0
      rw [if_pos rfl, if_pos rfl]
      show firstOccAux 'N' 0 0 (seq[0] :: seq.drop 1) = runStart seq 0 :: _
      unfold firstOccAux
      have hrs : runStart seq 0 = 0 := rfl
      by_cases hN : seq[0] = 'N'
      · rw [if_pos hN, hrs]
        refine congrArg (List.cons 0) ?_
        have h2 := hrec
        rw [if_neg (by omega), if_neg (by omega)] at h2
        rw [show (0 : Nat) + 1 - 1 = 0 from rfl] at h2
        rw [← h2, hrs, hc]
      · rw [if_neg hN, hrs]
        refine congrArg (List.cons 0) ?_
        have h2 := hrec
        rw [if_neg (by omega), if_neg (by omega)] at h2
        rw [show (0 : Nat) + 1 - 1 = 0 from rfl] at h2
        rw [← h2, hrs, hc]
    · rw [if_neg hi0, if_neg hi0]
      show firstOccAux (seq.getD (i - 1) 'A') (runStart seq (i - 1)) i (seq[i] :: seq.drop (i + 1)) = _
      unfold firstOccAux
      have hrs : runStart seq i =
          if seq.getD i 'A' = seq.getD (i - 1) 'A' then runStart seq (i - 1) else i := by
        rw [show i = (i - 1) + 1 from by omega, runStart, Nat.add_sub_cancel]
      by_cases hcond : seq[i] = seq.getD (i - 1) 'A'
      · rw [if_pos hcond]
        have hval : runStart seq i = runStart seq (i - 1) := by
          rw [hrs, if_pos (by rw [← hc]; exact hcond)]
        rw [hval]
        refine congrArg (List.cons (runStart seq (i - 1))) ?_
        have h2 := hrec
        rw [if_neg (by omega), if_neg (by omega)] at h2
        rw [show i + 1 - 1 = i from by omega] at h2
        rw [← h2, hval, hc]
      · rw [if_neg hcond]
        have hval : runStart seq i = i := by
          rw [hrs, if_neg (by rw [← hc]; exact hcond)]
        rw [hval]
        refine congrArg (List.cons i) ?_
        have h2 := hrec
        rw [if_neg (by omega), if_neg (by omega)] at h2
        rw [show i + 1 - 1 = i from by omega] at h2
        rw [← h2, hval, hc]

theorem first_occ_vector_eq (seq : List Char) :
    first_occ_vector seq = (List.range' 0 seq.length).map (runStart seq) := by
  have := firstOccAux_eq seq seq.length 0 (by omega) (by omega)
  rw [if_pos rfl, if_pos rfl] at this
  rw [show seq.drop 0 = seq from List.drop_zero seq] at this
  exact this

/-- The `last_occ_vector` fold is the `first_occ_vector` fold on the
reversed sequence with indices flipped. -/
theorem lastOccAux_eq (N : Nat) :
    ∀ (l : List Char) (pc : Char) (i' po' : Nat), i' + l.length ≤ N + 1 → po' ≤ N →
      lastOccAux pc (N - po') (N - i') l =
        (firstOccAux pc po' i' l).map (fun x => N - x) := by
  intro l
  induction l with
  | nil =>
    intro pc i' po' _ _
    rfl
  | cons c rest ih =>
    intro pc i' po' hbound hpo
    unfold lastOccAux firstOccAux
    rcases List.eq_nil_or_concat rest with hnil | _
    · subst hnil
      by_cases hcp : c = pc
      · rw [if_pos hcp, if_pos hcp]
        rfl
      · rw [if_neg hcp, if_neg hcp]
        rfl
    · have hiN : i' < N ∨ rest = [] := by
        rcases Nat.lt_or_ge i' N with h | h
        · exact Or.inl h
        · right
          have : rest.length = 0 := by
            simp only [List.length_cons] at hbound
            omega
          exact List.eq_nil_of_length_eq_zero this
      by_cases hcp : c = pc
      · rw [if_pos hcp, if_pos hcp, List.map_cons]
        refine congrArg (List.cons (N - po')) ?_
        rcases hiN with h | h
        · rw [show N - i' - 1 = N - (i' + 1) from by omega]
          refine ih c (i' + 1) po' ?_ hpo
          simp only [List.length_cons] at hbound
          omega
        · subst h
          rfl
      · rw [if_neg hcp, if_neg hcp, List.map_cons]
        refine congrArg (List.cons (N - i')) ?_
        rcases hiN with h | h
        · rw [show N - i' - 1 = N - (i' + 1) from by omega]
          refine ih c (i' + 1) i' ?_ (by omega)
          simp only [List.length_cons] at hbound
          omega
        · subst h
          rfl

theorem last_occ_vector_eq (seq : List Char) :
    last_occ_vector seq =
      ((first_occ_vector seq.reverse).map (fun x => seq.length - 1 - x)).reverse := by
  unfold last_occ_vector first_occ_vector
  have := lastOccAux_eq (seq.length - 1) seq.reverse 'N' 0 0
    (by simp only [List.length_reverse, Nat.zero_add]; omega) (by omega)
  rw [Nat.sub_zero] at this
  rw [this]

theorem first_occ_vector_length (seq : List Char) :
    (first_occ_vector seq).length = seq.length := by
  rw [first_occ_vector_eq]
  simp

theorem last_occ_vector_length (seq : List Char) :
    (last_occ_vector seq).length = seq.length := by
  rw [last_occ_vector_eq]
  simp [first_occ_vector_length]

theorem firstOccAt_eq (seq : List Char) (k : Nat) (hk : k < seq.length) :
    firstOccAt seq k = runStart seq k := by
  unfold firstOccAt
  rw [first_occ_vector_eq]
  rw [List.getD_eq_getElem?_getD, List.getElem?_eq_getElem (by simpa using hk)]
  simp

theorem getD_reverse (seq : List Char) (u : Nat) (hu : u < seq.length) :
    seq.reverse.getD u 'A' = seq.getD (seq.length - 1 - u) 'A' := by
  rw [getD_eq_getElem _ _ _ (by simpa using hu), getD_eq_getElem _ _ _ (by omega)]
  exact List.getElem_reverse (by simpa using hu)

theorem lastOccAt_eq (seq : List Char) (k : Nat) (hk : k < seq.length) :
    lastOccAt seq k = seq.length - 1 - runStart seq.reverse (seq.length - 1 - k) := by
  unfold lastOccAt
  rw [last_occ_vector_eq]
  have hlen : ((first_occ_vector seq.reverse).map
      (fun x => seq.length - 1 - x)).reverse.length = seq.length := by
    simp [first_occ_vector_length]
  rw [List.getD_eq_getElem?_getD, List.getElem?_eq_getElem (by rw [hlen]; exact hk)]
  rw [Option.getD_some]
  rw [List.getElem_reverse]
  have hmaplen : ((first_occ_vector seq.reverse).map
      (fun x => seq.length - 1 - x)).length = seq.length := by
    simp [first_occ_vector_length]
  rw [List.getElem_map]
  have hidx : ∀ (hh : ((first_occ_vector seq.reverse).map
        (fun x => seq.length - 1 - x)).length - 1 - k < (first_occ_vector seq.reverse).length),
      (first_occ_vector seq.reverse)[((first_occ_vector seq.reverse).map
        (fun x => seq.length - 1 - x)).length - 1 - k] =
        runStart seq.reverse (seq.length - 1 - k) := by
    intro hh
    have h2 : ((first_occ_vector seq.reverse).map
        (fun x => seq.length - 1 - x)).length - 1 - k < seq.reverse.length := by
      rw [hmaplen]
      simp only [List.length_reverse]
      omega
    rw [show (first_occ_vector seq.reverse)[((first_occ_vector seq.reverse).map
        (fun x => seq.length - 1 - x)).length - 1 - k] =
        (first_occ_vector seq.reverse).getD (((first_occ_vector seq.reverse).map
          (fun x => seq.length - 1 - x)).length - 1 - k) 0 from
      (getD_eq_getElem _ _ _ hh).symm]
    show firstOccAt seq.reverse _ = _
    rw [firstOccAt_eq seq.reverse _ (by simpa using h2), hmaplen]
  rw [hidx]

/-- Bound needed by the homopolymer-square geometry: the first occurrence
index never exceeds the position. -/
theorem firstOccAt_le (seq : List Char) (k : Nat) (hk : k < seq.length) :
    firstOccAt seq k ≤ k := by
  rw [firstOccAt_eq seq k hk]
  exact runStart_le seq k

theorem lastOccAt_ge (seq : List Char) (k : Nat) (hk : k < seq.length) :
    k ≤ lastOccAt seq k ∧ lastOccAt seq k < seq.length := by
  rw [lastOccAt_eq seq k hk]
  have h1 := runStart_le seq.reverse (seq.length - 1 - k)
  omega

/-! Homopolymer shortcut machinery. -/

/-- Value written by a shortcut-taking cell: the homopolymer square sum over
the matrix state at the moment the cell is evaluated. -/
theorem nonStableCell_shortcut (v w : List Char) (P : AlignmentParameters) (i : Nat)
    (M : Mats) (j : Nat)
    (hch : v.getD (i - 1) 'N' = w.getD (j - 1) 'N')
    (hfo : firstOccAt v (i - 1) ≠ i - 1 ∨ firstOccAt w (j - 1) ≠ j - 1)
    (hlo : lastOccAt v (i - 1) = i - 1 ∨ lastOccAt w (j - 1) = j - 1) :
    (nonStableCell v w P i M j).fm i j =
      hpSquareSum M P.homopolymer_probs (v.getD (i - 1) 'N')
        (firstOccAt v (i - 1)) (firstOccAt w (j - 1)) i j := by
  unfold nonStableCell
  dsimp only
  rw [if_pos ⟨hch, hfo⟩, if_neg (not_not_intro hlo)]
  show updM M.fm i j _ i j = _
  rw [show updM M.fm i j _ i j = _ from if_pos ⟨rfl, rfl⟩]

/-- Every perimeter cell of the homopolymer square lies strictly above row
`i`. -/
theorem hpIndices_row_lt (fv fw i j : Nat) (hfv : fv < i) :
    ∀ c ∈ hpIndices fv fw i j, c.1 < i := by
  intro c hc
  unfold hpIndices at hc
  rcases List.mem_append.mp hc with hc1 | hc2
  · rcases List.mem_append.mp hc1 with hc3 | hc4
    · obtain ⟨h, hh, hceq⟩ := List.mem_map.mp hc3
      have := List.mem_range'_1.mp (List.mem_reverse.mp hh)
      rw [← hceq]
      simp only []
      omega
    · rw [List.mem_singleton.mp hc4]
      exact hfv
  · obtain ⟨h, _, hceq⟩ := List.mem_map.mp hc2
    rw [← hceq]
    simp only []
    exact hfv

/-- The square sum only depends on the matrices at the perimeter cells. -/
theorem hpSquareSum_congr (M M' : Mats) (hp : HomopolymerProbs) (base : Char)
    (fv fw i j : Nat)
    (h : ∀ c ∈ hpIndices fv fw i j,
      M.fl c.1 c.2 = M'.fl c.1 c.2 ∧ M.fm c.1 c.2 = M'.fm c.1 c.2 ∧
        M.fu c.1 c.2 = M'.fu c.1 c.2) :
    hpSquareSum M hp base fv fw i j = hpSquareSum M' hp base fv fw i j := by
  unfold hpSquareSum
  refine congrArg List.sum ?_
  refine List.map_congr_left (fun c hc => ?_)
  obtain ⟨h1, h2, h3⟩ := h c hc
  unfold hpContribution
  rw [h1, h2, h3]

/-- Rows at or below `r` of the matrices are final after `r` rows. -/
theorem mRun_row_stable (v w : List Char) (P : AlignmentParameters) (bw : Nat)
    (i q r r' : Nat) (hir : i ≤ r) (hrr : r ≤ r') :
    (mRun v w P bw r').fl i q = (mRun v w P bw r).fl i q ∧
      (mRun v w P bw r').fm i q = (mRun v w P bw r).fm i q ∧
      (mRun v w P bw r').fu i q = (mRun v w P bw r).fu i q := by
  induction r' with
  | zero =>
    have : r = 0 := by omega
    subst this
    exact ⟨rfl, rfl, rfl⟩
  | succ r' ih =>
    by_cases hrr' : r = r' + 1
    · subst hrr'
      exact ⟨rfl, rfl, rfl⟩
    · have h1 : r ≤ r' := by omega
      rw [mRun_succ]
      obtain ⟨f1, f2, f3⟩ := nonStableRow_frame v w P bw (mRun v w P bw r') (1 + r') i q
        (Or.inl (by omega))
      obtain ⟨g1, g2, g3⟩ := ih h1
      exact ⟨by rw [f1, g1], by rw [f2, g2], by rw [f3, g3]⟩

/-- When a shortcut fires at an in-band cell `(i, j)`, the value of
`middle[i][j]` in the row result is the square sum over a state whose rows
other than `i` equal the row-start state. -/
theorem nonStableRow_shortcut (v w : List Char) (P : AlignmentParameters) (bw : Nat)
    (M : Mats) (i j : Nat)
    (hj : j ∈ rowCols (bandStart (bandMiddle v.length w.length i) (bw / 2))
      (bandEnd (bandMiddle v.length w.length i) (bw / 2) w.length))
    (hch : v.getD (i - 1) 'N' = w.getD (j - 1) 'N')
    (hfo : firstOccAt v (i - 1) ≠ i - 1 ∨ firstOccAt w (j - 1) ≠ j - 1)
    (hlo : lastOccAt v (i - 1) = i - 1 ∨ lastOccAt w (j - 1) = j - 1) :
    ∃ Mx : Mats,
      (nonStableRow v w P bw M i).fm i j =
        hpSquareSum Mx P.homopolymer_probs (v.getD (i - 1) 'N')
          (firstOccAt v (i - 1)) (firstOccAt w (j - 1)) i j ∧
      ∀ pp q, pp ≠ i →
        Mx.fl pp q = M.fl pp q ∧ Mx.fm pp q = M.fm pp q ∧ Mx.fu pp q = M.fu pp q := by
  obtain ⟨l1, l2, hsplit⟩ := List.append_of_mem hj
  have hnodup : (rowCols (bandStart (bandMiddle v.length w.length i) (bw / 2))
      (bandEnd (bandMiddle v.length w.length i) (bw / 2) w.length)).Nodup :=
    List.nodup_range' _ _
  rw [hsplit] at hnodup
  obtain ⟨_, hnd2, hdisj⟩ := List.nodup_append.mp hnodup
  have hjl2 : j ∉ l2 := (List.nodup_cons.mp hnd2).1
  refine ⟨l1.foldl (nonStableCell v w P i) M, ?_, ?_⟩
  · unfold nonStableRow
    dsimp only
    rw [hsplit, List.foldl_append, List.foldl_cons]
    obtain ⟨_, ff, _⟩ := foldl_nonStableCell_frame v w P i l2
      (nonStableCell v w P i (l1.foldl (nonStableCell v w P i) M) j) i j (Or.inr hjl2)
    rw [ff]
    exact nonStableCell_shortcut v w P i _ j hch hfo hlo
  · intro pp q hpp
    exact foldl_nonStableCell_frame v w P i l1 M pp q (Or.inl hpp)

/-! Viterbi diagonal machinery: with `insertion_from_match = 0` and
`deletion_from_match = 0` the only path with positive probability is the
all-match diagonal, and each diagonal cell pays one `match_from_match`
transition and one `equal` emission — including the first cell. -/

theorem maxOption_mid {x : ℚ} (hx : 0 ≤ x) : maxOption [0, x, 0] = x := by
  simp only [maxOption, List.foldl_cons, List.foldl_nil]
  split_ifs <;> linarith

theorem maxOption_zero : maxOption [(0 : ℚ), 0, 0] = 0 := by
  simp [maxOption]

theorem viterbiInner_diag (s : List Char) (t' : LnTransitionProbs) (e' : LnEmissionProbs)
    (hifm : t'.insertion_from_match = 0) (hdfm : t'.deletion_from_match = 0)
    (heq : 0 ≤ e'.equal) (hmm : 0 ≤ t'.match_from_match)
    (i r : Nat) (hr : i = r + 1) (b1 : Bufs)
    (hprev : ∀ k, k ≤ s.length → b1.lp k = 0 ∧ b1.up k = 0 ∧
      b1.mp k = (if k = r then e'.equal ^ r * t'.match_from_match ^ r else 0))
    (hb1 : b1.lc 0 = 0 ∧ b1.mc 0 = 0 ∧ b1.uc 0 = 0)
    (c : Nat) (hc : c ≤ s.length) :
    (∀ k, k ≤ c → ((List.range' 1 c).foldl (viterbiCell s s t' e' i) b1).lc k = 0 ∧
      ((List.range' 1 c).foldl (viterbiCell s s t' e' i) b1).uc k = 0 ∧
      ((List.range' 1 c).foldl (viterbiCell s s t' e' i) b1).mc k =
        (if k = i ∧ 1 ≤ k then e'.equal ^ i * t'.match_from_match ^ i else 0)) ∧
    ((List.range' 1 c).foldl (viterbiCell s s t' e' i) b1).lp = b1.lp ∧
    ((List.range' 1 c).foldl (viterbiCell s s t' e' i) b1).mp = b1.mp ∧
    ((List.range' 1 c).foldl (viterbiCell s s t' e' i) b1).up = b1.up := by
  induction c with
  | zero =>
    refine ⟨fun k hk => ?_, rfl, rfl, rfl⟩
    have hk0 : k = 0 := by omega
    subst hk0
    rw [if_neg (by omega)]
    exact ⟨hb1.1, hb1.2.2, hb1.2.1⟩
  | succ c ih =>
    obtain ⟨IH1, IP1, IP2, IP3⟩ := ih (by omega)
    rw [foldl_range'_one_succ]
    constructor
    · intro k hk
      by_cases hkc : k = 1 + c
      · subst hkc
        refine ⟨?_, ?_, ?_⟩
        · rw [viterbiCell_lc, IP1, IP2]
          obtain ⟨hl, _, hm⟩ := hprev (1 + c) (by omega)
          rw [hl, hm, hifm]
          simp
        · rw [viterbiCell_uc, hdfm]
          have huc : ((List.range' 1 c).foldl (viterbiCell s s t' e' i) b1).uc (1 + c - 1) = 0 := by
            rcases Nat.eq_zero_or_pos c with hc0 | hc0
            · subst hc0
              show ((List.range' 1 0).foldl (viterbiCell s s t' e' i) b1).uc 0 = 0
              exact hb1.2.2
            · rw [show 1 + c - 1 = c from by omega]
              exact (IH1 c (le_refl c)).2.1
          rw [huc]
          simp
        · rw [viterbiCell_mc, IP1, IP2, IP3]
          rw [show 1 + c - 1 = c from by omega]
          obtain ⟨hl, hu, hm⟩ := hprev c (by omega)
          rw [hl, hu, hm]
          by_cases hdiag : c = r
          · rw [if_pos hdiag]
            have hpos : 0 ≤ e'.equal ^ r * t'.match_from_match ^ r * t'.match_from_match :=
              mul_nonneg (mul_nonneg (pow_nonneg heq r) (pow_nonneg hmm r)) hmm
            rw [show (0 : ℚ) * t'.match_from_insertion = 0 from by ring,
              show (0 : ℚ) * t'.match_from_deletion = 0 from by ring,
              maxOption_mid hpos]
            have hchar : s.getD (i - 1) 'N' = s.getD c 'N' := by
              rw [hdiag, hr, show r + 1 - 1 = r from by omega]
            rw [if_pos hchar]
            rw [if_pos (show 1 + c = i ∧ 1 ≤ 1 + c from ⟨by omega, by omega⟩)]
            rw [hr]
            ring
          · rw [if_neg hdiag]
            rw [show (0 : ℚ) * t'.match_from_insertion = 0 from by ring,
              show (0 : ℚ) * t'.match_from_match = 0 from by ring,
              show (0 : ℚ) * t'.match_from_deletion = 0 from by ring,
              maxOption_zero]
            rw [if_neg (show ¬(1 + c = i ∧ 1 ≤ 1 + c) from by omega)]
            ring
      · have hk2 : k ≤ c := by omega
        obtain ⟨C1, C2, C3⟩ := IH1 k hk2
        obtain ⟨X1, X2, X3⟩ := viterbiCell_curr_ne s s t' e' i
          ((List.range' 1 c).foldl (viterbiCell s s t' e' i) b1) (1 + c) k hkc
        exact ⟨by rw [X1, C1], by rw [X3, C2], by rw [X2, C3]⟩
    · exact ⟨IP1, IP2, IP3⟩

theorem viterbiRow_diag (s : List Char) (t' : LnTransitionProbs) (e' : LnEmissionProbs)
    (hifm : t'.insertion_from_match = 0) (hdfm : t'.deletion_from_match = 0)
    (heq : 0 ≤ e'.equal) (hmm : 0 ≤ t'.match_from_match)
    (bw : Nat) (p : ℚ) (r : Nat) (hr1 : r + 1 ≤ s.length) (hfb : s.length ≤ bw / 2)
    (b : Bufs)
    (hprev : ∀ k, k ≤ s.length → b.lp k = 0 ∧ b.up k = 0 ∧
      b.mp k = (if k = r then e'.equal ^ r * t'.match_from_match ^ r else 0))
    (huc0 : b.uc 0 = 0) :
    (∀ k, k ≤ s.length →
      (logRow t' s.length s.length bw p (viterbiCell s s t' e') b (r + 1)).lp k = 0 ∧
      (logRow t' s.length s.length bw p (viterbiCell s s t' e') b (r + 1)).up k = 0 ∧
      (logRow t' s.length s.length bw p (viterbiCell s s t' e') b (r + 1)).mp k =
        (if k = r + 1 then e'.equal ^ (r + 1) * t'.match_from_match ^ (r + 1) else 0)) ∧
    (logRow t' s.length s.length bw p (viterbiCell s s t' e') b (r + 1)).uc 0 = 0 := by
  have hn : 1 ≤ s.length := by omega
  have hbm : bandMiddle s.length s.length (r + 1) ≤ s.length := bandMiddle_le hn hr1
  rw [logRow_fullband _ _ _ _ _ _ _ _ hbm hfb]
  set b1 := blockStep t' 1 (r + 1) b with hb1def
  have hb1p : b1.lp = b.lp ∧ b1.mp = b.mp ∧ b1.up = b.up := by
    refine ⟨?_, ?_, ?_⟩ <;> simp [hb1def, blockStep]
  have hb1c : b1.lc 0 = 0 ∧ b1.mc 0 = 0 ∧ b1.uc 0 = 0 := by
    refine ⟨?_, ?_, ?_⟩
    · have : b1.lc 0 = (if r + 1 = 1 then t'.insertion_from_match
          else b.lp 0 * t'.insertion_from_insertion) := by
        simp [hb1def, blockStep, upd]
      rw [this]
      split
      · exact hifm
      · rw [(hprev 0 (by omega)).1]
        ring
    · simp [hb1def, blockStep, upd]
    · simp [hb1def, blockStep, huc0]
  obtain ⟨I1, J1, J2, J3⟩ := viterbiInner_diag s t' e' hifm hdfm heq hmm (r + 1) r rfl b1
    (fun k hk => by
      rw [hb1p.1, hb1p.2.1, hb1p.2.2]
      exact hprev k hk) hb1c s.length (le_refl _)
  obtain ⟨CC, CL, CM, CU⟩ := foldl_copy_char (List.range' 0 (s.length + 1))
    ((List.range' 1 s.length).foldl (viterbiCell s s t' e' (r + 1)) b1)
  have hmemc : ∀ k, k ≤ s.length → k ∈ List.range' 0 (s.length + 1) := by
    intro k hk
    rw [List.mem_range'_1]
    omega
  constructor
  · intro k hk
    obtain ⟨c1, c2, c3⟩ := CC k
    obtain ⟨h1, h2, h3⟩ := I1 k hk
    have hmem := hmemc k hk
    refine ⟨?_, ?_, ?_⟩
    · show ((List.range' 0 (s.length + 1)).foldl copyStep _).lp k = 0
      rw [c1, if_pos hmem, h1]
    · show ((List.range' 0 (s.length + 1)).foldl copyStep _).up k = 0
      rw [c3, if_pos hmem, h2]
    · show ((List.range' 0 (s.length + 1)).foldl copyStep _).mp k = _
      rw [c2, if_pos hmem, h3]
      by_cases hkr : k = r + 1
      · rw [if_pos ⟨hkr, by omega⟩, if_pos hkr]
      · rw [if_neg (fun hcon => hkr hcon.1), if_neg hkr]
  · show upd ((List.range' 0 (s.length + 1)).foldl copyStep _).uc 1 0 0 = 0
    rw [upd_ne _ _ _ _ (by omega), CU]
    exact (I1 0 (by omega)).2.1

theorem viterbiRun_diag (s : List Char) (t' : LnTransitionProbs) (e' : LnEmissionProbs)
    (hifm : t'.insertion_from_match = 0) (hdfm : t'.deletion_from_match = 0)
    (heq : 0 ≤ e'.equal) (hmm : 0 ≤ t'.match_from_match)
    (bw : Nat) (p : ℚ) (hn : 1 ≤ s.length) (hfb : s.length ≤ bw / 2)
    (r : Nat) (hr : r ≤ s.length) :
    (∀ k, k ≤ s.length →
      ((List.range' 1 r).foldl (logRow t' s.length s.length bw p (viterbiCell s s t' e'))
        (initBufs t' s.length)).lp k = 0 ∧
      ((List.range' 1 r).foldl (logRow t' s.length s.length bw p (viterbiCell s s t' e'))
        (initBufs t' s.length)).up k = 0 ∧
      ((List.range' 1 r).foldl (logRow t' s.length s.length bw p (viterbiCell s s t' e'))
        (initBufs t' s.length)).mp k =
          (if k = r then e'.equal ^ r * t'.match_from_match ^ r else 0)) ∧
    ((List.range' 1 r).foldl (logRow t' s.length s.length bw p (viterbiCell s s t' e'))
      (initBufs t' s.length)).uc 0 = 0 := by
  induction r with
  | zero =>
    constructor
    · intro k hk
      refine ⟨rfl, ?_, ?_⟩
      · show upperInit t' s.length k = 0
        rw [upperInit_char t' s.length hn k, hdfm]
        split <;> simp
      · show upd (fun _ => 0) 0 1 k = _
        by_cases hk0 : k = 0
        · subst hk0
          simp [upd]
        · simp [upd, hk0]
    · exact rfl
  | succ r ih =>
    obtain ⟨ihp, ihc⟩ := ih (by omega)
    rw [foldl_range'_one_succ]
    rw [show 1 + r = r + 1 from by omega]
    exact viterbiRow_diag s t' e' hifm hdfm heq hmm bw p r hr hfb _ ihp ihc

/-- Viterbi on two copies of the same sequence with the off-diagonal
transitions zeroed out: the result is exactly `|s|` equal-emissions and
`|s|` continue-match transitions (the first diagonal step also pays
`match_from_match`, since the model starts in the match state). -/
theorem viterbi_diag (p : ℚ) (s : List Char) (params : LnAlignmentParameters) (mbw : Nat)
    (hs : s.length ≠ 0)
    (hifm : params.transition_probs.insertion_from_match = 0)
    (hdfm : params.transition_probs.deletion_from_match = 0)
    (heq : 0 ≤ params.emission_probs.equal)
    (hmm : 0 ≤ params.transition_probs.match_from_match)
    (hfb : s.length ≤ bandWidth mbw s.length s.length / 2) :
    viterbi_max_scoring_alignment p s s params mbw =
      some (params.emission_probs.equal ^ s.length *
        params.transition_probs.match_from_match ^ s.length) := by
  unfold viterbi_max_scoring_alignment
  rw [if_neg hs]
  dsimp only
  obtain ⟨H, _⟩ := viterbiRun_diag s params.transition_probs params.emission_probs
    hifm hdfm heq hmm (bandWidth mbw s.length s.length) p (by omega) hfb s.length (le_refl _)
  obtain ⟨_, _, h3⟩ := H s.length (le_refl _)
  rw [h3, if_pos rfl]

/-! Remaining small helpers for the claim theorems. -/

theorem foldl_stableCell_frame (v w : List Char) (t : LnTransitionProbs)
    (e : LnEmissionProbs) (i : Nat) (js : List Nat) (b : Bufs) (k : Nat) (hk : k ∉ js) :
    (js.foldl (stableCell v w t e i) b).lc k = b.lc k ∧
      (js.foldl (stableCell v w t e i) b).mc k = b.mc k ∧
      (js.foldl (stableCell v w t e i) b).uc k = b.uc k := by
  induction js generalizing b with
  | nil => exact ⟨rfl, rfl, rfl⟩
  | cons j rest ih =>
    rw [List.foldl_cons]
    have hkj : k ≠ j := fun hcon => hk (hcon ▸ List.mem_cons_self j rest)
    obtain ⟨f1, f2, f3⟩ := stableCell_curr_ne v w t e i b j k hkj
    obtain ⟨g1, g2, g3⟩ := ih (stableCell v w t e i b j)
      (fun hcon => hk (List.mem_cons_of_mem j hcon))
    exact ⟨by rw [g1, f1], by rw [g2, f2], by rw [g3, f3]⟩

theorem foldl_viterbiCell_frame (v w : List Char) (t : LnTransitionProbs)
    (e : LnEmissionProbs) (i : Nat) (js : List Nat) (b : Bufs) (k : Nat) (hk : k ∉ js) :
    (js.foldl (viterbiCell v w t e i) b).lc k = b.lc k ∧
      (js.foldl (viterbiCell v w t e i) b).mc k = b.mc k ∧
      (js.foldl (viterbiCell v w t e i) b).uc k = b.uc k := by
  induction js generalizing b with
  | nil => exact ⟨rfl, rfl, rfl⟩
  | cons j rest ih =>
    rw [List.foldl_cons]
    have hkj : k ≠ j := fun hcon => hk (hcon ▸ List.mem_cons_self j rest)
    obtain ⟨f1, f2, f3⟩ := viterbiCell_curr_ne v w t e i b j k hkj
    obtain ⟨g1, g2, g3⟩ := ih (viterbiCell v w t e i b j)
      (fun hcon => hk (List.mem_cons_of_mem j hcon))
    exact ⟨by rw [g1, f1], by rw [g2, f2], by rw [g3, f3]⟩

theorem lastOcc_run (seq : List Char) (k : Nat) (hk : k < seq.length) :
    ∀ t, k ≤ t → t ≤ lastOccAt seq k → seq.getD t 'A' = seq.getD k 'A' := by
  intro t h1 h2
  rw [lastOccAt_eq seq k hk] at h2
  have hrs := runStart_le seq.reverse (seq.length - 1 - k)
  have hrun := runStart_run seq.reverse (seq.length - 1 - k) (seq.length - 1 - t)
    (by omega) (by omega)
  have h3 : seq.reverse.getD (seq.length - 1 - t) 'A' = seq.getD t 'A' := by
    rw [getD_reverse seq (seq.length - 1 - t) (by omega)]
    rw [show seq.length - 1 - (seq.length - 1 - t) = t from by omega]
  have h4 : seq.reverse.getD (seq.length - 1 - k) 'A' = seq.getD k 'A' := by
    rw [getD_reverse seq (seq.length - 1 - k) (by omega)]
    rw [show seq.length - 1 - (seq.length - 1 - k) = k from by omega]
  rw [← h3, ← h4]
  exact hrun

theorem lastOcc_boundary (seq : List Char) (k : Nat) (hk : k < seq.length) :
    lastOccAt seq k = seq.length - 1 ∨
      seq.getD (lastOccAt seq k + 1) 'A' ≠ seq.getD (lastOccAt seq k) 'A' := by
  rw [lastOccAt_eq seq k hk]
  have hrs := runStart_le seq.reverse (seq.length - 1 - k)
  rcases runStart_boundary seq.reverse (seq.length - 1 - k) with h0 | hne
  · left
    omega
  · by_cases hz : runStart seq.reverse (seq.length - 1 - k) = 0
    · rw [hz] at hne
      exact absurd rfl hne
    · right
      have ha : seq.reverse.getD (runStart seq.reverse (seq.length - 1 - k) - 1) 'A' =
          seq.getD (seq.length - 1 - runStart seq.reverse (seq.length - 1 - k) + 1) 'A' := by
        rw [getD_reverse seq _ (by omega)]
        rw [show seq.length - 1 - (runStart seq.reverse (seq.length - 1 - k) - 1) =
          seq.length - 1 - runStart seq.reverse (seq.length - 1 - k) + 1 from by omega]
      have hb : seq.reverse.getD (runStart seq.reverse (seq.length - 1 - k)) 'A' =
          seq.getD (seq.length - 1 - runStart seq.reverse (seq.length - 1 - k)) 'A' := by
        rw [getD_reverse seq _ (by omega)]
      rw [← ha, ← hb]
      exact hne

theorem stable_isSome (p : ℚ) (v w : List Char) (params : LnAlignmentParameters)
    (min_band_width : Nat) (hw : w.length ≠ 0) :
    (forward_algorithm_numerically_stable p v w params min_band_width).isSome = true := by
  unfold forward_algorithm_numerically_stable
  rw [if_neg hw]
  rfl

theorem viterbi_isSome (p : ℚ) (v w : List Char) (params : LnAlignmentParameters)
    (min_band_width : Nat) (hw : w.length ≠ 0) :
    (viterbi_max_scoring_alignment p v w params min_band_width).isSome = true := by
  unfold viterbi_max_scoring_alignment
  rw [if_neg hw]
  rfl

/-! ## Concrete parameter bundles for the witnesses and counterexamples -/

/-- Log-domain transition bundle whose exponentiated entries are all `1`. -/
def oneT : LnTransitionProbs :=
  { match_from_match := 1, insertion_from_match := 1, deletion_from_match := 1
    insertion_from_insertion := 1, match_from_insertion := 1
    deletion_from_deletion := 1, match_from_deletion := 1 }

/-- Log-domain emission bundle whose exponentiated entries are all `1`. -/
def oneE : LnEmissionProbs :=
  { equal := 1, not_equal := 1, insertion := 1, deletion := 1 }

/-- Log-domain parameter bundle whose exponentiated entries are all `1`,
with an empty homopolymer table. -/
def oneP : LnAlignmentParameters := ⟨oneT, oneE, ⟨fun _ _ _ => none⟩⟩

/-- A concrete linear-domain transition bundle. -/
def cexTlin : TransitionProbs :=
  { match_from_match := 1/2, insertion_from_match := 1/3, deletion_from_match := 1/5
    insertion_from_insertion := 1/7, match_from_insertion := 2/5
    deletion_from_deletion := 1/11, match_from_deletion := 3/7 }

/-- A concrete linear-domain emission bundle. -/
def cexElin : EmissionProbs :=
  { equal := 9/10, not_equal := 1/10, insertion := 1/4, deletion := 1/6 }

/-- A concrete linear-domain parameter bundle with an empty homopolymer
table. -/
def cexPlin : AlignmentParameters := ⟨cexTlin, cexElin, ⟨fun _ _ _ => none⟩⟩

/-- Linear-domain bundle whose homopolymer table holds exactly the key
`(A, 2, 1)`: base `A`, run length `2` on the reference `v`, run length `1`
on the read `w`, the key order the claim prescribes for that run geometry. -/
def cexC5P : AlignmentParameters :=
  ⟨cexTlin, cexElin, ⟨fun b x y => if b = 'A' ∧ x = 2 ∧ y = 1 then some (1/2) else none⟩⟩

/-- Linear-domain bundle whose homopolymer table holds exactly the key
`(A, 1, 2)`, the key the source actually builds for a run of length `2` on
`v` and length `1` on `w` (length on `w` first). -/
def witC5P : AlignmentParameters :=
  ⟨cexTlin, cexElin, ⟨fun b x y => if b = 'A' ∧ x = 1 ∧ y = 2 then some (1/3) else none⟩⟩

/-- Log-domain transitions with `insertion_from_match = deletion_from_match
= 0` (log-impossible) and continue-match probability `1/2`. -/
def c6T : LnTransitionProbs :=
  { match_from_match := 1/2, insertion_from_match := 0, deletion_from_match := 0
    insertion_from_insertion := 0, match_from_insertion := 0
    deletion_from_deletion := 0, match_from_deletion := 0 }

/-- Log-domain emissions with `equal` probability `1/2` and everything else
impossible. -/
def c6E : LnEmissionProbs :=
  { equal := 1/2, not_equal := 0, insertion := 0, deletion := 0 }

/-- Log-domain bundle in which the all-match diagonal is the only path with
positive probability. -/
def c6P : LnAlignmentParameters := ⟨c6T, c6E, ⟨fun _ _ _ => none⟩⟩

/-! ## The claims -/

/-- C1: for non-empty `v` and `w` and a log-domain parameter bundle whose
exponentiated entries are nonnegative (true of the exponential of any log
probability), both engines return a value, and the Viterbi result is at
most the stable forward result on the same inputs — the best single
alignment path cannot exceed the sum over all paths.  The two poison
values `p` and `q` are arbitrary and independent. -/
theorem C1_viterbi_le_forward (p q : ℚ) (v w : List Char)
    (params : LnAlignmentParameters) (min_band_width : Nat)
    (_hv : v ≠ []) (hw : w ≠ []) (hP : NonnegParams params) :
    (viterbi_max_scoring_alignment p v w params min_band_width).isSome = true ∧
      (forward_algorithm_numerically_stable q v w params min_band_width).isSome = true ∧
      (viterbi_max_scoring_alignment p v w params min_band_width).getD 0 ≤
        (forward_algorithm_numerically_stable q v w params min_band_width).getD 0 := by
  have hw0 : w.length ≠ 0 := fun hcon => hw (List.length_eq_zero.mp hcon)
  exact ⟨viterbi_isSome p v w params min_band_width hw0,
    stable_isSome q v w params min_band_width hw0,
    viterbi_le_stable p q v w params min_band_width hP hw0⟩

/-- Witness for C1 at `v = "AC"`, `w = "A"`, the all-ones bundle and
`min_band_width = 1`. -/
theorem C1_viterbi_le_forward_witness :
    (['A', 'C'] : List Char) ≠ [] ∧ NonnegParams oneP ∧
      ((viterbi_max_scoring_alignment 3 ['A', 'C'] ['A'] oneP 1).isSome = true ∧
        (forward_algorithm_numerically_stable 5 ['A', 'C'] ['A'] oneP 1).isSome = true ∧
        (viterbi_max_scoring_alignment 3 ['A', 'C'] ['A'] oneP 1).getD 0 ≤
          (forward_algorithm_numerically_stable 5 ['A', 'C'] ['A'] oneP 1).getD 0) :=
  ⟨by decide, by simp [NonnegParams, NonnegT, NonnegE, oneP, oneT, oneE],
    C1_viterbi_le_forward 3 5 ['A', 'C'] ['A'] oneP 1 (by decide) (by decide)
      (by simp [NonnegParams, NonnegT, NonnegE, oneP, oneT, oneE])⟩

/-- C2 counterexample: at `v = w = "AA"`, the bundle `cexPlin` (empty
homopolymer table) and `min_band_width = 2 = max(|v|, |w|)`, the
homopolymer shortcut fires at cell `(2, 2)` (`"AA"` is a run) and writes
the empty-table sum `0` there, so the non-stable engine returns
probability `0` while the stable engine, which has no shortcut, computes
`81/400`: the claimed full-band equality fails. -/
theorem C2_counterexample :
    2 = max (['A', 'A'] : List Char).length (['A', 'A'] : List Char).length ∧
      forward_algorithm_non_numerically_stable ['A', 'A'] ['A', 'A'] cexPlin 2 =
        some 0 ∧
      forward_algorithm_numerically_stable 0 ['A', 'A'] ['A', 'A'] cexPlin.ln 2 =
        some (81/400) ∧
      forward_algorithm_non_numerically_stable ['A', 'A'] ['A', 'A'] cexPlin 2 ≠
        forward_algorithm_numerically_stable 0 ['A', 'A'] ['A', 'A'] cexPlin.ln 2 := by
  have h1 : forward_algorithm_non_numerically_stable ['A', 'A'] ['A', 'A'] cexPlin 2 =
      some 0 := by
    norm_num [forward_algorithm_non_numerically_stable, nonStableMats, nonStableRow,
      nonStableCell, nonStableInit, upperRowInit, lowerColInit, hpSquareSum, hpIndices,
      hpContribution, firstOccAt, lastOccAt, first_occ_vector, last_occ_vector,
      firstOccAux, lastOccAux, bandWidth, bandMiddle, bandStart, bandEnd, rowCols,
      updM, List.range', cexPlin, cexTlin, cexElin]
  have h2 : forward_algorithm_numerically_stable 0 ['A', 'A'] ['A', 'A'] cexPlin.ln 2 =
      some (81/400) := by
    norm_num [forward_algorithm_numerically_stable, bandWidth, bandMiddle, bandStart,
      bandEnd, rowCols, logRow, resetStep, poisonStep, copyStep, blockStep, stableCell,
      initBufs, upperInit, upd, List.range', AlignmentParameters.ln, TransitionProbs.ln,
      EmissionProbs.ln, HomopolymerProbs.ln, cexPlin, cexTlin, cexElin]
  refine ⟨by decide, h1, h2, ?_⟩
  rw [h1, h2]
  intro hcon
  have := Option.some.inj hcon
  norm_num at this

/-- C2 amended: when neither sequence contains a homopolymer run (every
position is its own run start, so the shortcut never fires) and the half
band width covers the whole column range (`|w| ≤ bandWidth / 2`, so every
row evaluates columns `1..=|w|` and the stale-buffer initialisation above
the band never enters it), the non-stable engine computes exactly the
stable engine's probability, for every poison value `p`. -/
theorem C2_fullband_agreement (p : ℚ) (v w : List Char) (P : AlignmentParameters)
    (min_band_width : Nat) (hv : v ≠ []) (hw : w ≠ [])
    (hfb : w.length ≤ bandWidth min_band_width v.length w.length / 2)
    (hnrv : ∀ k, k < v.length → firstOccAt v k = k)
    (hnrw : ∀ k, k < w.length → firstOccAt w k = k) :
    forward_algorithm_non_numerically_stable v w P min_band_width =
      forward_algorithm_numerically_stable p v w P.ln min_band_width :=
  nonstable_eq_stable_fullband p v w P min_band_width
    (fun hcon => hv (List.length_eq_zero.mp hcon))
    (fun hcon => hw (List.length_eq_zero.mp hcon)) hfb hnrv hnrw

/-- Witness for C2 at `v = "A"`, `w = "C"` and `min_band_width = 2`. -/
theorem C2_fullband_agreement_witness :
    (['C'] : List Char).length ≤ bandWidth 2 (['A'] : List Char).length
        (['C'] : List Char).length / 2 ∧
      forward_algorithm_non_numerically_stable ['A'] ['C'] cexPlin 2 =
        forward_algorithm_numerically_stable 7 ['A'] ['C'] cexPlin.ln 2 :=
  ⟨by decide, C2_fullband_agreement 7 ['A'] ['C'] cexPlin 2 (by decide) (by decide)
    (by decide) (by decide) (by decide)⟩

/-- C3: with `n = |v| > 0` and `m = |w|`, the effective band width is
`min_band_width + |n - m|`; in row `i` the band is centred at
`band_middle = m * i / n` (floor division) with half-width
`band_width / 2`, and `band_start` and `band_end` are exactly that centre
clipped to `[1, m]` (`max 1 (bm - half)` and `min (bm + half) m`); the
evaluated columns of the row are exactly the `j` with
`band_start ≤ j ≤ band_end`; and a column outside that interval is written
by no engine's row pass: the stable and Viterbi cell folds leave all three
current-row buffers unchanged there, and the non-stable row leaves all
three matrices unchanged there. -/
theorem C3_banding (min_band_width n m i j : Nat) (v w : List Char)
    (t : LnTransitionProbs) (e : LnEmissionProbs) (b : Bufs)
    (P : AlignmentParameters) (M : Mats)
    (hn : n = v.length) (hm : m = w.length) (hn0 : n ≠ 0)
    (_hi1 : 1 ≤ i) (_hi2 : i ≤ n) :
    bandWidth min_band_width n m = min_band_width + (max n m - min n m) ∧
      bandMiddle n m i = m * i / n ∧
      bandStart (bandMiddle n m i) (bandWidth min_band_width n m / 2) =
        max 1 (bandMiddle n m i - bandWidth min_band_width n m / 2) ∧
      bandEnd (bandMiddle n m i) (bandWidth min_band_width n m / 2) m =
        min (bandMiddle n m i + bandWidth min_band_width n m / 2) m ∧
      (j ∈ rowCols (bandStart (bandMiddle n m i) (bandWidth min_band_width n m / 2))
          (bandEnd (bandMiddle n m i) (bandWidth min_band_width n m / 2) m) ↔
        bandStart (bandMiddle n m i) (bandWidth min_band_width n m / 2) ≤ j ∧
          j ≤ bandEnd (bandMiddle n m i) (bandWidth min_band_width n m / 2) m) ∧
      (¬(bandStart (bandMiddle n m i) (bandWidth min_band_width n m / 2) ≤ j ∧
          j ≤ bandEnd (bandMiddle n m i) (bandWidth min_band_width n m / 2) m) →
        (((rowCols (bandStart (bandMiddle n m i) (bandWidth min_band_width n m / 2))
            (bandEnd (bandMiddle n m i) (bandWidth min_band_width n m / 2) m)).foldl
            (stableCell v w t e i) b).lc j = b.lc j ∧
          ((rowCols (bandStart (bandMiddle n m i) (bandWidth min_band_width n m / 2))
            (bandEnd (bandMiddle n m i) (bandWidth min_band_width n m / 2) m)).foldl
            (stableCell v w t e i) b).mc j = b.mc j ∧
          ((rowCols (bandStart (bandMiddle n m i) (bandWidth min_band_width n m / 2))
            (bandEnd (bandMiddle n m i) (bandWidth min_band_width n m / 2) m)).foldl
            (stableCell v w t e i) b).uc j = b.uc j) ∧
        (((rowCols (bandStart (bandMiddle n m i) (bandWidth min_band_width n m / 2))
            (bandEnd (bandMiddle n m i) (bandWidth min_band_width n m / 2) m)).foldl
            (viterbiCell v w t e i) b).lc j = b.lc j ∧
          ((rowCols (bandStart (bandMiddle n m i) (bandWidth min_band_width n m / 2))
            (bandEnd (bandMiddle n m i) (bandWidth min_band_width n m / 2) m)).foldl
            (viterbiCell v w t e i) b).mc j = b.mc j ∧
          ((rowCols (bandStart (bandMiddle n m i) (bandWidth min_band_width n m / 2))
            (bandEnd (bandMiddle n m i) (bandWidth min_band_width n m / 2) m)).foldl
            (viterbiCell v w t e i) b).uc j = b.uc j) ∧
        ((nonStableRow v w P (bandWidth min_band_width n m) M i).fl i j = M.fl i j ∧
          (nonStableRow v w P (bandWidth min_band_width n m) M i).fm i j = M.fm i j ∧
          (nonStableRow v w P (bandWidth min_band_width n m) M i).fu i j = M.fu i j)) := by
  subst hn
  subst hm
  refine ⟨by unfold bandWidth; omega, rfl, by unfold bandStart; split <;> omega,
    by unfold bandEnd; split <;> omega, ?_, ?_⟩
  · constructor
    · intro hmem
      obtain ⟨h1, h2, _⟩ := mem_rowCols.mp hmem
      exact ⟨h1, h2⟩
    · intro hio
      exact mem_rowCols.mpr ⟨hio.1, hio.2, le_trans hio.1 hio.2⟩
  · intro hout
    have hnot : j ∉ rowCols
        (bandStart (bandMiddle v.length w.length i)
          (bandWidth min_band_width v.length w.length / 2))
        (bandEnd (bandMiddle v.length w.length i)
          (bandWidth min_band_width v.length w.length / 2) w.length) := by
      intro hmem
      obtain ⟨h1, h2, _⟩ := mem_rowCols.mp hmem
      exact hout ⟨h1, h2⟩
    refine ⟨foldl_stableCell_frame v w t e i _ b j hnot,
      foldl_viterbiCell_frame v w t e i _ b j hnot, ?_⟩
    unfold nonStableRow
    exact foldl_nonStableCell_frame v w P i _ M i j (Or.inr hnot)

/-- Witness for C3 at `n = 2`, `m = 3`, row `i = 1`, out-of-band column
`j = 9`, `min_band_width = 1`. -/
theorem C3_banding_witness :
    bandWidth 1 2 3 = 1 + (max 2 3 - min 2 3) ∧
      bandMiddle 2 3 1 = 3 * 1 / 2 ∧
      bandStart (bandMiddle 2 3 1) (bandWidth 1 2 3 / 2) =
        max 1 (bandMiddle 2 3 1 - bandWidth 1 2 3 / 2) ∧
      bandEnd (bandMiddle 2 3 1) (bandWidth 1 2 3 / 2) 3 =
        min (bandMiddle 2 3 1 + bandWidth 1 2 3 / 2) 3 ∧
      (9 ∈ rowCols (bandStart (bandMiddle 2 3 1) (bandWidth 1 2 3 / 2))
          (bandEnd (bandMiddle 2 3 1) (bandWidth 1 2 3 / 2) 3) ↔
        bandStart (bandMiddle 2 3 1) (bandWidth 1 2 3 / 2) ≤ 9 ∧
          9 ≤ bandEnd (bandMiddle 2 3 1) (bandWidth 1 2 3 / 2) 3) ∧
      (¬(bandStart (bandMiddle 2 3 1) (bandWidth 1 2 3 / 2) ≤ 9 ∧
          9 ≤ bandEnd (bandMiddle 2 3 1) (bandWidth 1 2 3 / 2) 3) →
        (((rowCols (bandStart (bandMiddle 2 3 1) (bandWidth 1 2 3 / 2))
            (bandEnd (bandMiddle 2 3 1) (bandWidth 1 2 3 / 2) 3)).foldl
            (stableCell ['A', 'C'] ['A', 'C', 'G'] oneT oneE 1)
            (initBufs oneT 3)).lc 9 = (initBufs oneT 3).lc 9 ∧
          ((rowCols (bandStart (bandMiddle 2 3 1) (bandWidth 1 2 3 / 2))
            (bandEnd (bandMiddle 2 3 1) (bandWidth 1 2 3 / 2) 3)).foldl
            (stableCell ['A', 'C'] ['A', 'C', 'G'] oneT oneE 1)
            (initBufs oneT 3)).mc 9 = (initBufs oneT 3).mc 9 ∧
          ((rowCols (bandStart (bandMiddle 2 3 1) (bandWidth 1 2 3 / 2))
            (bandEnd (bandMiddle 2 3 1) (bandWidth 1 2 3 / 2) 3)).foldl
            (stableCell ['A', 'C'] ['A', 'C', 'G'] oneT oneE 1)
            (initBufs oneT 3)).uc 9 = (initBufs oneT 3).uc 9) ∧
        (((rowCols (bandStart (bandMiddle 2 3 1) (bandWidth 1 2 3 / 2))
            (bandEnd (bandMiddle 2 3 1) (bandWidth 1 2 3 / 2) 3)).foldl
            (viterbiCell ['A', 'C'] ['A', 'C', 'G'] oneT oneE 1)
            (initBufs oneT 3)).lc 9 = (initBufs oneT 3).lc 9 ∧
          ((rowCols (bandStart (bandMiddle 2 3 1) (bandWidth 1 2 3 / 2))
            (bandEnd (bandMiddle 2 3 1) (bandWidth 1 2 3 / 2) 3)).foldl
            (viterbiCell ['A', 'C'] ['A', 'C', 'G'] oneT oneE 1)
            (initBufs oneT 3)).mc 9 = (initBufs oneT 3).mc 9 ∧
          ((rowCols (bandStart (bandMiddle 2 3 1) (bandWidth 1 2 3 / 2))
            (bandEnd (bandMiddle 2 3 1) (bandWidth 1 2 3 / 2) 3)).foldl
            (viterbiCell ['A', 'C'] ['A', 'C', 'G'] oneT oneE 1)
            (initBufs oneT 3)).uc 9 = (initBufs oneT 3).uc 9) ∧
        ((nonStableRow ['A', 'C'] ['A', 'C', 'G'] cexPlin (bandWidth 1 2 3)
            (nonStableInit cexTlin 2 3) 1).fl 1 9 =
            (nonStableInit cexTlin 2 3).fl 1 9 ∧
          (nonStableRow ['A', 'C'] ['A', 'C', 'G'] cexPlin (bandWidth 1 2 3)
            (nonStableInit cexTlin 2 3) 1).fm 1 9 =
            (nonStableInit cexTlin 2 3).fm 1 9 ∧
          (nonStableRow ['A', 'C'] ['A', 'C', 'G'] cexPlin (bandWidth 1 2 3)
            (nonStableInit cexTlin 2 3) 1).fu 1 9 =
            (nonStableInit cexTlin 2 3).fu 1 9)) :=
  C3_banding 1 2 3 1 9 ['A', 'C'] ['A', 'C', 'G'] oneT oneE (initBufs oneT 3)
    cexPlin (nonStableInit cexTlin 2 3) (by decide) (by decide) (by decide)
    (by decide) (by decide)

/-- C4: the poison value (the model of the NaN written into the stale
previous-row slot `band_start - 2` after each row) never reaches the
returned value of either log-domain engine: the result is identical for
any two poison values, and on non-empty `w` the engines do return a
value.  The hypotheses on the parameters in the claim are not needed:
the stale slot is simply never read back. -/
theorem C4_poison_never_surfaces (p q : ℚ) (v w : List Char)
    (params : LnAlignmentParameters) (min_band_width : Nat)
    (_hv : v ≠ []) (hw : w ≠ []) :
    forward_algorithm_numerically_stable p v w params min_band_width =
        forward_algorithm_numerically_stable q v w params min_band_width ∧
      viterbi_max_scoring_alignment p v w params min_band_width =
        viterbi_max_scoring_alignment q v w params min_band_width ∧
      (forward_algorithm_numerically_stable p v w params min_band_width).isSome =
        true ∧
      (viterbi_max_scoring_alignment p v w params min_band_width).isSome = true := by
  have hw0 : w.length ≠ 0 := fun hcon => hw (List.length_eq_zero.mp hcon)
  exact ⟨stable_poison_irrelevant p q v w params min_band_width,
    viterbi_poison_irrelevant p q v w params min_band_width,
    stable_isSome p v w params min_band_width hw0,
    viterbi_isSome p v w params min_band_width hw0⟩

/-- Witness for C4 at `v = "A"`, `w = "C"`, poison values `100` and `-7`. -/
theorem C4_poison_never_surfaces_witness :
    (['A'] : List Char) ≠ [] ∧
      (forward_algorithm_numerically_stable 100 ['A'] ['C'] oneP 1 =
          forward_algorithm_numerically_stable (-7) ['A'] ['C'] oneP 1 ∧
        viterbi_max_scoring_alignment 100 ['A'] ['C'] oneP 1 =
          viterbi_max_scoring_alignment (-7) ['A'] ['C'] oneP 1 ∧
        (forward_algorithm_numerically_stable 100 ['A'] ['C'] oneP 1).isSome = true ∧
        (viterbi_max_scoring_alignment 100 ['A'] ['C'] oneP 1).isSome = true) :=
  ⟨by decide,
    C4_poison_never_surfaces 100 (-7) ['A'] ['C'] oneP 1 (by decide) (by decide)⟩

/-- C5 counterexample: at `v = "AA"`, `w = "A"`, `min_band_width = 2`, the
shortcut fires at the final cell `(2, 1)` (the characters match, the run on
`v` does not start at row index `1`, and the run on `v` ends there); the
square corner is `(0, 0)` and the perimeter is `[(1,0), (0,0)]`.  With the
table `cexC5P` holding only the claim-ordered key `(A, 2, 1)` — run length
`2` on the reference `v` and `1` on the read `w` — the code computes
`middle[2][1] = 0`, while the claimed perimeter sum, whose key at the
corner is `(A, 2 - 0, 1 - 0)`, evaluates to `1/2`: the source keys the
lookup as `(base, j - h_j, i - h_i)`, the run length on `w` before the run
length on `v`, which is the swapped order. -/
theorem C5_counterexample :
    (['A', 'A'] : List Char).getD 1 'N' = (['A'] : List Char).getD 0 'N' ∧
      firstOccAt ['A', 'A'] 1 = 0 ∧
      firstOccAt ['A'] 0 = 0 ∧
      lastOccAt ['A', 'A'] 1 = 1 ∧
      1 ∈ rowCols (bandStart (bandMiddle 2 1 2) (bandWidth 2 2 1 / 2))
        (bandEnd (bandMiddle 2 1 2) (bandWidth 2 2 1 / 2) 1) ∧
      (nonStableMats ['A', 'A'] ['A'] cexC5P 2).fm 2 1 = 0 ∧
      ((hpIndices 0 0 2 1).map (fun c =>
          ((nonStableMats ['A', 'A'] ['A'] cexC5P 2).fl c.1 c.2 +
            (nonStableMats ['A', 'A'] ['A'] cexC5P 2).fm c.1 c.2 +
            (nonStableMats ['A', 'A'] ['A'] cexC5P 2).fu c.1 c.2) *
          ((cexC5P.homopolymer_probs.lookup 'A' (2 - c.1) (1 - c.2)).getD 0))).sum =
        1/2 ∧
      (0 : ℚ) ≠ 1/2 := by
  refine ⟨by decide, by decide, by decide, by decide, by decide, ?_, ?_, by norm_num⟩
  · norm_num [nonStableMats, nonStableRow, nonStableCell, nonStableInit, upperRowInit,
      lowerColInit, hpSquareSum, hpIndices, hpContribution, firstOccAt, lastOccAt,
      first_occ_vector, last_occ_vector, firstOccAux, lastOccAux, bandWidth, bandMiddle,
      bandStart, bandEnd, rowCols, updM, List.range', cexC5P, cexTlin, cexElin]
  · norm_num [nonStableMats, nonStableRow, nonStableCell, nonStableInit, upperRowInit,
      lowerColInit, hpSquareSum, hpIndices, hpContribution, firstOccAt, lastOccAt,
      first_occ_vector, last_occ_vector, firstOccAux, lastOccAux, bandWidth, bandMiddle,
      bandStart, bandEnd, rowCols, updM, List.range', cexC5P, cexTlin, cexElin]

/-- C5 amended: when the shortcut fires at an in-band cell `(i, j)` (equal
characters, the run containing `v[i-1]` or `w[j-1]` does not start there,
and one of the two runs ends there), the final `middle[i][j]` equals the
perimeter sum over the homopolymer square's boundary cells of
`(lower + middle + upper) * P`, where `hpSquareSum` keys the table exactly
as the source does — `(base, j - h_j, i - h_i)`, the run length measured on
`w` before the run length measured on `v` — and a missing key contributes
`0`.  The perimeter values may be read off the final matrices because rows
above `i` are final when row `i` runs. -/
theorem C5_shortcut_square_sum (v w : List Char) (P : AlignmentParameters)
    (min_band_width i j : Nat) (hi1 : 1 ≤ i) (hi2 : i ≤ v.length)
    (hj : j ∈ rowCols
      (bandStart (bandMiddle v.length w.length i)
        (bandWidth min_band_width v.length w.length / 2))
      (bandEnd (bandMiddle v.length w.length i)
        (bandWidth min_band_width v.length w.length / 2) w.length))
    (hch : v.getD (i - 1) 'N' = w.getD (j - 1) 'N')
    (hfo : firstOccAt v (i - 1) ≠ i - 1 ∨ firstOccAt w (j - 1) ≠ j - 1)
    (hlo : lastOccAt v (i - 1) = i - 1 ∨ lastOccAt w (j - 1) = j - 1) :
    (nonStableMats v w P min_band_width).fm i j =
      hpSquareSum (nonStableMats v w P min_band_width) P.homopolymer_probs
        (v.getD (i - 1) 'N') (firstOccAt v (i - 1)) (firstOccAt w (j - 1)) i j := by
  obtain ⟨k, rfl⟩ : ∃ k, i = k + 1 := ⟨i - 1, by omega⟩
  simp only [Nat.add_sub_cancel] at hch hfo hlo ⊢
  have hkey : nonStableMats v w P min_band_width =
      mRun v w P (bandWidth min_band_width v.length w.length) v.length := rfl
  have hfv : firstOccAt v k < k + 1 := by
    have := firstOccAt_le v k (by omega)
    omega
  obtain ⟨_, hstab, _⟩ := mRun_row_stable v w P
    (bandWidth min_band_width v.length w.length) (k + 1) j (k + 1) v.length
    (le_refl (k + 1)) hi2
  rw [hkey, hstab, mRun_succ, show 1 + k = k + 1 from Nat.add_comm 1 k]
  obtain ⟨Mx, hval, hframe⟩ := nonStableRow_shortcut v w P
    (bandWidth min_band_width v.length w.length)
    (mRun v w P (bandWidth min_band_width v.length w.length) k) (k + 1) j hj hch hfo hlo
  rw [hval]
  simp only [Nat.add_sub_cancel]
  refine hpSquareSum_congr Mx
    (mRun v w P (bandWidth min_band_width v.length w.length) v.length)
    P.homopolymer_probs (v.getD k 'N') (firstOccAt v k) (firstOccAt w (j - 1))
    (k + 1) j (fun c hc => ?_)
  have hlt : c.1 < k + 1 :=
    hpIndices_row_lt (firstOccAt v k) (firstOccAt w (j - 1)) (k + 1) j hfv c hc
  obtain ⟨f1, f2, f3⟩ := hframe c.1 c.2 (by omega)
  obtain ⟨g1, g2, g3⟩ := mRun_row_stable v w P
    (bandWidth min_band_width v.length w.length) c.1 c.2 k v.length (by omega) (by omega)
  exact ⟨by rw [f1, g1], by rw [f2, g2], by rw [f3, g3]⟩

/-- Witness for C5 at `v = "AA"`, `w = "A"`, the table holding the
code-ordered key `(A, 1, 2)`, cell `(2, 1)`. -/
theorem C5_shortcut_square_sum_witness :
    (['A', 'A'] : List Char).getD 1 'N' = (['A'] : List Char).getD 0 'N' ∧
      (firstOccAt ['A', 'A'] 1 ≠ 1 ∨ firstOccAt ['A'] 0 ≠ 0) ∧
      (nonStableMats ['A', 'A'] ['A'] witC5P 2).fm 2 1 =
        hpSquareSum (nonStableMats ['A', 'A'] ['A'] witC5P 2)
          witC5P.homopolymer_probs ((['A', 'A'] : List Char).getD 1 'N')
          (firstOccAt ['A', 'A'] 1) (firstOccAt ['A'] 0) 2 1 :=
  ⟨by decide, by decide,
    C5_shortcut_square_sum ['A', 'A'] ['A'] witC5P 2 2 1 (by decide) (by decide)
      (by decide) (by decide) (by decide) (by decide)⟩

/-- C6 counterexample: at `s = "A"` with `equal = match_from_match = 1/2`
and every other parameter `0`, the claim predicts
`(|s| - 1) = 0` continue-match factors and one `equal` factor, i.e.
probability `1/2`, but the engine returns `1/4 = equal * match_from_match`:
the first diagonal cell also pays a `match_from_match` transition, because
`middle_prev[0]` is initialised to `ln_one`. -/
theorem C6_counterexample :
    viterbi_max_scoring_alignment 0 ['A'] ['A'] c6P 1 = some (1/4) ∧
      viterbi_max_scoring_alignment 0 ['A'] ['A'] c6P 1 ≠ some (1/2) := by
  have h : viterbi_max_scoring_alignment 0 ['A'] ['A'] c6P 1 = some (1/4) := by
    norm_num [viterbi_max_scoring_alignment, bandWidth, bandMiddle, bandStart, bandEnd,
      rowCols, logRow, resetStep, poisonStep, copyStep, blockStep, viterbiCell,
      maxOption, initBufs, upperInit, upd, List.range', c6P, c6T, c6E]
  refine ⟨h, ?_⟩
  rw [h]
  intro hcon
  have := Option.some.inj hcon
  norm_num at this

/-- C6 amended: for non-empty `s` aligned against itself, with
`insertion_from_match = deletion_from_match = 0` (the all-match diagonal is
the best path), nonnegative `equal` and `match_from_match`, and a band
covering every column, the Viterbi engine returns exactly `|s|` `equal`
factors and `|s|` — not `|s| - 1` — `match_from_match` factors. -/
theorem C6_viterbi_diagonal (p : ℚ) (s : List Char) (params : LnAlignmentParameters)
    (min_band_width : Nat) (hs : s ≠ [])
    (hifm : params.transition_probs.insertion_from_match = 0)
    (hdfm : params.transition_probs.deletion_from_match = 0)
    (heq : 0 ≤ params.emission_probs.equal)
    (hmm : 0 ≤ params.transition_probs.match_from_match)
    (hfb : s.length ≤ bandWidth min_band_width s.length s.length / 2) :
    viterbi_max_scoring_alignment p s s params min_band_width =
      some (params.emission_probs.equal ^ s.length *
        params.transition_probs.match_from_match ^ s.length) :=
  viterbi_diag p s params min_band_width (fun hcon => hs (List.length_eq_zero.mp hcon))
    hifm hdfm heq hmm hfb

/-- Witness for C6 at `s = "AC"` and `min_band_width = 4`. -/
theorem C6_viterbi_diagonal_witness :
    (['A', 'C'] : List Char) ≠ [] ∧
      viterbi_max_scoring_alignment 11 ['A', 'C'] ['A', 'C'] c6P 4 =
        some (c6P.emission_probs.equal ^ (['A', 'C'] : List Char).length *
          c6P.transition_probs.match_from_match ^ (['A', 'C'] : List Char).length) :=
  ⟨by decide,
    C6_viterbi_diagonal 11 ['A', 'C'] c6P 4 (by decide) rfl rfl
      (by norm_num [c6P, c6E]) (by norm_num [c6P, c6T]) (by decide)⟩

/-- C7 counterexample: on `v = []`, `w = "A"` the stable forward and
Viterbi engines do not reject the input: they skip the row loop entirely
and return the initialisation value `middle_prev[1]`, the probability `0`
(`ln_zero`), a legitimate-looking log-probability rather than a defined
invalid-input failure. -/
theorem C7_counterexample :
    forward_algorithm_numerically_stable 0 [] ['A'] oneP 1 = some 0 ∧
      viterbi_max_scoring_alignment 0 [] ['A'] oneP 1 = some 0 ∧
      forward_algorithm_numerically_stable 0 [] ['A'] oneP 1 ≠ none := by
  have h : forward_algorithm_numerically_stable 0 [] ['A'] oneP 1 = some 0 := rfl
  refine ⟨h, rfl, ?_⟩
  rw [h]
  exact Option.some_ne_none 0

/-- C7 amended: no engine explicitly rejects an empty `v`.  For non-empty
`w` the two log-domain engines return the probability `0` read from the
untouched initial buffer, and the non-stable engine fails only by its
unconditional out-of-bounds write `forward_lower[1][0]` (a panic, modelled
`none`), not by a defined invalid-input check. -/
theorem C7_empty_v_result (p : ℚ) (w : List Char) (paramsLn : LnAlignmentParameters)
    (P : AlignmentParameters) (min_band_width : Nat) (hw : w ≠ []) :
    forward_algorithm_numerically_stable p [] w paramsLn min_band_width = some 0 ∧
      viterbi_max_scoring_alignment p [] w paramsLn min_band_width = some 0 ∧
      forward_algorithm_non_numerically_stable [] w P min_band_width = none := by
  have hw0 : w.length ≠ 0 := fun hcon => hw (List.length_eq_zero.mp hcon)
  refine ⟨?_, ?_, ?_⟩
  · unfold forward_algorithm_numerically_stable
    rw [if_neg hw0]
    show some (if w.length = 0 then (1 : ℚ) else 0) = some 0
    rw [if_neg hw0]
  · unfold viterbi_max_scoring_alignment
    rw [if_neg hw0]
    show some (if w.length = 0 then (1 : ℚ) else 0) = some 0
    rw [if_neg hw0]
  · unfold forward_algorithm_non_numerically_stable
    rw [if_neg hw0]
    rfl

/-- Witness for C7 at `w = "A"`. -/
theorem C7_empty_v_result_witness :
    (['A'] : List Char) ≠ [] ∧
      (forward_algorithm_numerically_stable 9 [] ['A'] oneP 3 = some 0 ∧
        viterbi_max_scoring_alignment 9 [] ['A'] oneP 3 = some 0 ∧
        forward_algorithm_non_numerically_stable [] ['A'] cexPlin 3 = none) :=
  ⟨by decide, C7_empty_v_result 9 ['A'] oneP cexPlin 3 (by decide)⟩

/-- C8 counterexample: on `w = []` none of the three engines completes:
each immediately performs an unconditional out-of-bounds write
(`upper_prev[1]` in the log-domain engines, `forward_upper[0][1]` in the
non-stable engine) into a buffer of length `m + 1 = 1`, a panic modelled
`none` — no all-insertion probability is ever returned. -/
theorem C8_counterexample :
    forward_algorithm_numerically_stable 0 ['A'] [] oneP 1 = none ∧
      viterbi_max_scoring_alignment 0 ['A'] [] oneP 1 = none ∧
      forward_algorithm_non_numerically_stable ['A'] [] cexPlin 1 = none :=
  ⟨rfl, rfl, rfl⟩

/-- C8 amended: a zero-length `w` is not legal: every engine panics on its
very first buffer write (index `1` into a row of length `m + 1 = 1`), for
every `v`, every parameter bundle and every band width. -/
theorem C8_empty_w_rejected (p : ℚ) (v : List Char)
    (paramsLn : LnAlignmentParameters) (P : AlignmentParameters)
    (min_band_width : Nat) :
    forward_algorithm_numerically_stable p v [] paramsLn min_band_width = none ∧
      viterbi_max_scoring_alignment p v [] paramsLn min_band_width = none ∧
      forward_algorithm_non_numerically_stable v [] P min_band_width = none :=
  ⟨rfl, rfl, rfl⟩

/-- C9: `first_occ_vector` and `last_occ_vector` bracket the maximal run of
equal consecutive symbols containing each position: `first_occ[i] ≤ i ≤
last_occ[i] < |seq|`, the symbol is constant on `[first_occ[i], i]` and on
`[i, last_occ[i]]`, `first_occ[i]` is `0` or preceded by a different
symbol, `last_occ[i]` is the last index or followed by a different symbol;
and the two worked examples of the specification hold. -/
theorem C9_occ_vectors (seq : List Char) (i t : Nat) (hi : i < seq.length) :
    firstOccAt seq i ≤ i ∧
      i ≤ lastOccAt seq i ∧
      lastOccAt seq i < seq.length ∧
      (firstOccAt seq i ≤ t → t ≤ i → seq.getD t 'A' = seq.getD i 'A') ∧
      (i ≤ t → t ≤ lastOccAt seq i → seq.getD t 'A' = seq.getD i 'A') ∧
      (firstOccAt seq i = 0 ∨
        seq.getD (firstOccAt seq i - 1) 'A' ≠ seq.getD (firstOccAt seq i) 'A') ∧
      (lastOccAt seq i = seq.length - 1 ∨
        seq.getD (lastOccAt seq i + 1) 'A' ≠ seq.getD (lastOccAt seq i) 'A') ∧
      first_occ_vector ['A', 'T', 'C', 'C', 'C', 'C', 'T'] = [0, 1, 2, 2, 2, 2, 6] ∧
      last_occ_vector ['A', 'T', 'C', 'C', 'C', 'C', 'T'] = [0, 1, 5, 5, 5, 5, 6] ∧
      first_occ_vector ['A', 'A', 'A', 'C', 'C', 'C'] = [0, 0, 0, 3, 3, 3] ∧
      last_occ_vector ['A', 'A', 'A', 'C', 'C', 'C'] = [2, 2, 2, 5, 5, 5] := by
  have hf := firstOccAt_eq seq i hi
  refine ⟨firstOccAt_le seq i hi, (lastOccAt_ge seq i hi).1, (lastOccAt_ge seq i hi).2,
    ?_, lastOcc_run seq i hi t, ?_, lastOcc_boundary seq i hi,
    by decide, by decide, by decide, by decide⟩
  · intro h1 h2
    rw [hf] at h1
    exact runStart_run seq i t h1 h2
  · rw [hf]
    exact runStart_boundary seq i

/-- Witness for C9 at `seq = "AAACCC"`, `i = 1`, `t = 2`. -/
theorem C9_occ_vectors_witness :
    1 < (['A', 'A', 'A', 'C', 'C', 'C'] : List Char).length ∧
      (firstOccAt ['A', 'A', 'A', 'C', 'C', 'C'] 1 ≤ 1 ∧
        1 ≤ lastOccAt ['A', 'A', 'A', 'C', 'C', 'C'] 1 ∧
        lastOccAt ['A', 'A', 'A', 'C', 'C', 'C'] 1 <
          (['A', 'A', 'A', 'C', 'C', 'C'] : List Char).length ∧
        (firstOccAt ['A', 'A', 'A', 'C', 'C', 'C'] 1 ≤ 2 → 2 ≤ 1 →
          (['A', 'A', 'A', 'C', 'C', 'C'] : List Char).getD 2 'A' =
            (['A', 'A', 'A', 'C', 'C', 'C'] : List Char).getD 1 'A') ∧
        (1 ≤ 2 → 2 ≤ lastOccAt ['A', 'A', 'A', 'C', 'C', 'C'] 1 →
          (['A', 'A', 'A', 'C', 'C', 'C'] : List Char).getD 2 'A' =
            (['A', 'A', 'A', 'C', 'C', 'C'] : List Char).getD 1 'A') ∧
        (firstOccAt ['A', 'A', 'A', 'C', 'C', 'C'] 1 = 0 ∨
          (['A', 'A', 'A', 'C', 'C', 'C'] : List Char).getD
              (firstOccAt ['A', 'A', 'A', 'C', 'C', 'C'] 1 - 1) 'A' ≠
            (['A', 'A', 'A', 'C', 'C', 'C'] : List Char).getD
              (firstOccAt ['A', 'A', 'A', 'C', 'C', 'C'] 1) 'A') ∧
        (lastOccAt ['A', 'A', 'A', 'C', 'C', 'C'] 1 =
            (['A', 'A', 'A', 'C', 'C', 'C'] : List Char).length - 1 ∨
          (['A', 'A', 'A', 'C', 'C', 'C'] : List Char).getD
              (lastOccAt ['A', 'A', 'A', 'C', 'C', 'C'] 1 + 1) 'A' ≠
            (['A', 'A', 'A', 'C', 'C', 'C'] : List Char).getD
              (lastOccAt ['A', 'A', 'A', 'C', 'C', 'C'] 1) 'A') ∧
        first_occ_vector ['A', 'T', 'C', 'C', 'C', 'C', 'T'] = [0, 1, 2, 2, 2, 2, 6] ∧
        last_occ_vector ['A', 'T', 'C', 'C', 'C', 'C', 'T'] = [0, 1, 5, 5, 5, 5, 6] ∧
        first_occ_vector ['A', 'A', 'A', 'C', 'C', 'C'] = [0, 0, 0, 3, 3, 3] ∧
        last_occ_vector ['A', 'A', 'A', 'C', 'C', 'C'] = [2, 2, 2, 5, 5, 5]) :=
  ⟨by decide, C9_occ_vectors ['A', 'A', 'A', 'C', 'C', 'C'] 1 2 (by decide)⟩

/-- C10: both occurrence-vector functions are total (in the model where
the wrapping `seq.len() - 1` of the empty case is a plain `usize`
subtraction whose value is never used) and return one entry per input
position, the empty sequence included. -/
theorem C10_total_length (seq : List Char) :
    (first_occ_vector seq).length = seq.length ∧
      (last_occ_vector seq).length = seq.length ∧
      first_occ_vector [] = [] ∧
      last_occ_vector [] = [] :=
  ⟨first_occ_vector_length seq, last_occ_vector_length seq, rfl, rfl⟩

end Realignment
